import Mathlib

/-!
# Verification of the Open Enclave memory manager (`common/mman.c`)

This file is a shallow embedding of the page-granular virtual memory manager
implemented in `common/mman.c`, together with theorems about its public
operations (`oe_mman_init`, `oe_mman_brk`, `oe_mman_sbrk`, `oe_mman_map`,
`oe_mman_unmap`, `oe_mman_remap`) and the sanity predicate
(`oe_mman_is_sane`).

Modelling conventions:
* `uintptr_t` / `size_t` values are modelled as `Nat`.  The C subtraction
  `mman->map - size` in `_mman_find_gap` wraps modulo `2^64` when
  `size > map`; it is modelled by the wrapping difference `sub64`, which
  agrees with the machine subtraction on all machine-word operands.  On the
  wrapped fallback the chosen start lies outside every mapped region, so
  the zero-fill `memset` in `oe_mman_map` faults and the call never
  returns; `Reach` carries this completion condition (`mapCompletes`,
  `remapCompletes`) on its `map` and `remap` steps.
* The `uint32_t` field `oe_vad_t::size` and the `uint16_t` fields `prot`
  and `flags` are modelled with explicit reductions modulo `2^32` and
  `2^16` at every store, exactly where the C code casts
  (`vad->size = (uint32_t)size;` in `_mman_new_vad`, etc.).
* The doubly-linked VAD list is modelled as a `List` in list order; the
  `prev`/`next` pointers carry no information beyond adjacency in that
  order.  The free-VAD list together with the never-used portion of the
  VAD array (`next_vad`/`end_vad`) is modelled by the single count `avail`
  of descriptors that `_free_list_get` can still produce.
* `ptrdiff_t` is modelled as `Int`; the cast `(uintptr_t)increment` in
  `oe_mman_sbrk` is modelled as reduction modulo `2^64` (`ucast64`).
* The mutex, the `coverage` array and the raw byte contents of the heap are
  not part of the state; the `memset` calls that scrub or zero memory are
  recorded as events (`MEvent`) where an ordering claim needs them.
-/

namespace MmanModel

/-- OE_PAGE_SIZE. -/
def PAGE_SIZE : Nat := 4096

/-- Modulus of the 32-bit `size` field of a VAD (`uint32_t`). -/
def U32 : Nat := 4294967296

/-- Modulus of the 16-bit `prot`/`flags` fields (`uint16_t`). -/
def U16 : Nat := 65536

/-- Modulus of `uintptr_t`/`size_t` (64-bit). -/
def U64 : Nat := 18446744073709551616

/-- Modelled from the spec: the fixed sentinel `OE_HEAP_MAGIC` used for the
cheap liveness check.  The header declaring the concrete constant is not
among the sources; any fixed value plays the same role. -/
def OE_HEAP_MAGIC : Nat := 3735928559

/-- Modelled from the spec: `sizeof(oe_vad_t)`.  The descriptor holds two
list links (8 bytes each), a `uintptr_t` address (8), a `uint32_t` size and
two `uint16_t` fields, 32 bytes in total.  The header with the struct
declaration is not among the sources. -/
def VAD_SIZEOF : Nat := 32

/-- OE_PROT_READ. -/
def OE_PROT_READ : Nat := 1
/-- OE_PROT_WRITE. -/
def OE_PROT_WRITE : Nat := 2
/-- OE_PROT_EXEC. -/
def OE_PROT_EXEC : Nat := 4
/-- Modelled from the spec: OE_MAP_SHARED (header not among the sources). -/
def OE_MAP_SHARED : Nat := 1
/-- Modelled from the spec: OE_MAP_PRIVATE. -/
def OE_MAP_PRIVATE : Nat := 2
/-- Modelled from the spec: OE_MAP_FIXED. -/
def OE_MAP_FIXED : Nat := 16
/-- Modelled from the spec: OE_MAP_ANONYMOUS. -/
def OE_MAP_ANONYMOUS : Nat := 32
/-- Modelled from the spec: OE_MREMAP_MAYMOVE (the single remap flag). -/
def OE_MREMAP_MAYMOVE : Nat := 1

/-- `oe_round_up_to_multiple(x, m)`. -/
def roundUpMult (x m : Nat) : Nat := (x + m - 1) / m * m

/-- `(uintptr_t)increment` for a `ptrdiff_t` argument: two's-complement
reduction modulo `2^64`. -/
def ucast64 (i : Int) : Nat := (i.emod 18446744073709551616).toNat

/-- The difference `a - b` as C computes it on `uintptr_t` operands: for
machine-word values (`a, b < 2^64`) the subtraction wraps modulo `2^64`
when `b > a`, instead of saturating at zero. -/
def sub64 (a b : Nat) : Nat := if b ≤ a then a - b else a + U64 - b

/-- `oe_vad_t`: a region descriptor.  `size` is the `uint32_t` field; every
write in the operations below reduces it modulo `U32` exactly where the C
code stores through a `uint32_t` lvalue. -/
structure oe_vad where
  addr : Nat
  size : Nat
  prot : Nat
  flags : Nat
deriving DecidableEq, Repr, Inhabited

/-- `_end(vad) = vad->addr + vad->size`. -/
def vadEnd (v : oe_vad) : Nat := v.addr + v.size

/-- `oe_mman_t`.  `end_` is the C field `end` (a Lean keyword);
`inited` is the C field `initialized`; `avail` abstracts the free-VAD list
plus the unused `next_vad`/`end_vad` pool as the number of descriptors
`_free_list_get` can still return. -/
structure oe_mman where
  base : Nat
  size : Nat
  start : Nat
  brk : Nat
  map : Nat
  end_ : Nat
  vad_list : List oe_vad
  avail : Nat
  scrub : Bool
  sanity : Bool
  magic : Nat
  inited : Bool
  err : String
deriving DecidableEq, Repr, Inhabited

/-- `_get_right_gap(mman, vad)`: the successor of `vad` is the head of
`rest`, the portion of the list after `vad`. -/
def getRightGap (e : Nat) (v : oe_vad) (rest : List oe_vad) : Nat :=
  match rest with
  | next :: _ => next.addr - vadEnd v
  | [] => e - vadEnd v

/-- The sorted-list walk of `oe_mman_is_sane` (the final `for` loop),
returning the verdict and the diagnostic left in `mman->err`. -/
def sortedCheck : List oe_vad → Bool × String
  | p :: next :: rest =>
    if ¬ (p.addr < next.addr) then (false, "unordered VAD list (1)")
    else if vadEnd p = next.addr then (false, "contiguous VAD list elements")
    else if ¬ (vadEnd p ≤ next.addr) then (false, "unordered VAD list (2)")
    else sortedCheck (next :: rest)
  | _ => (true, "")

/-- The body of `oe_mman_is_sane`: verdict together with the diagnostic the
function leaves in `mman->err` (`""` when every check passes). -/
def isSaneChecks (m : oe_mman) : Bool × String :=
  if m.magic ≠ OE_HEAP_MAGIC then (false, "bad magic")
  else if m.inited = false then (false, "uninitialized")
  else if ¬ (m.start < m.end_) then (false, "start not less than end")
  else if m.size ≠ m.end_ - m.base then (false, "invalid size")
  else if ¬ (m.start ≤ m.brk) then (false, "!(mman->start <= mman->brk)")
  else if ¬ (m.map ≤ m.end_) then (false, "!(mman->map <= mman->end)")
  else match m.vad_list with
    | v :: _ =>
      if m.map ≠ v.addr then (false, "mman->map != mman->vad_list->addr")
      else sortedCheck m.vad_list
    | [] =>
      if m.map ≠ m.end_ then (false, "mman->map != mman->end")
      else sortedCheck m.vad_list

/-- `oe_mman_is_sane` (verdict only). -/
def oe_mman_is_sane (m : oe_mman) : Bool := (isSaneChecks m).1

/-- `_mman_is_sane`: run the full check only when `mman->sanity` is set.
`oe_mman_is_sane` updates `mman->err` as a side effect, so the state is
returned alongside the verdict. -/
def mmanIsSane (m : oe_mman) : Bool × oe_mman :=
  if m.sanity then ((isSaneChecks m).1, {m with err := (isSaneChecks m).2})
  else (true, m)

/-- `oe_result_t` (the constructors the manager uses). -/
inductive oe_result where
  | OE_OK
  | OE_FAILURE
  | OE_INVALID_PARAMETER
  | OE_OUT_OF_MEMORY
  | OE_UNEXPECTED
deriving DecidableEq, Repr

/-- Internal events of an operation, used to state ordering properties:
`freePut` is `_free_list_put`, `memsetE a l p` is `memset((void*)a, p, l)`,
`listRemove`/`listInsert` are `_list_remove`/`_list_insert_after`, and
`syncTop` is `_mman_sync_top`. -/
inductive MEvent where
  | listRemove
  | listInsert
  | syncTop
  | freePut
  | memsetE (addr len pat : Nat)
deriving DecidableEq, Repr

/-- `_mman_sync_top`: the value assigned to `mman->map` (the address of the
first list element, or `end` when the list is empty). -/
def syncTopVal (e : Nat) : List oe_vad → Nat
  | [] => e
  | v :: _ => v.addr

/-- `oe_mman_init`.  The C function validates the scalar arguments and then
`memset`s the structure, so its result does not depend on the prior struct
contents; the model returns the constructed state, or `none` on a
validation failure (`OE_INVALID_PARAMETER`).  The final
`_mman_is_sane` check cannot fail because `sanity` has just been cleared. -/
def oe_mman_init (base size : Nat) : Option oe_mman :=
  if base = 0 ∨ size = 0 then none
  else if base % PAGE_SIZE ≠ 0 then none
  else if size % PAGE_SIZE ≠ 0 then none
  else
    let num_pages := size / PAGE_SIZE
    let start := roundUpMult (base + num_pages * VAD_SIZEOF) PAGE_SIZE
    some { base := base
           size := size
           start := start
           brk := start
           map := base + size
           end_ := base + size
           vad_list := []
           avail := (start - base) / VAD_SIZEOF
           scrub := false
           sanity := false
           magic := OE_HEAP_MAGIC
           inited := true
           err := "" }

/-- `oe_mman_sbrk`.  Returns the old break value (`none` models the NULL
failure return).  The comparison is the C one:
`(uintptr_t)increment <= mman->map - mman->brk`. -/
def oe_mman_sbrk (m : oe_mman) (increment : Int) : Option Nat × oe_mman :=
  let m := {m with err := ""}
  match mmanIsSane m with
  | (false, m) => (none, m)
  | (true, m) =>
    if increment = 0 then
      -- return the current break value without changing it
      match mmanIsSane m with
      | (false, m2) => (none, m2)
      | (true, m2) => (some m.brk, m2)
    else if ucast64 increment ≤ m.map - m.brk then
      -- increment the break value and return the old one
      match mmanIsSane {m with brk := m.brk + ucast64 increment} with
      | (false, m2) => (none, m2)
      | (true, m2) => (some m.brk, m2)
    else (none, {m with err := "out of memory"})

/-- `oe_mman_brk`. -/
def oe_mman_brk (m : oe_mman) (addr : Nat) : oe_result × oe_mman :=
  let m := {m with err := ""}
  if addr < m.start ∨ addr ≥ m.map then
    (.OE_INVALID_PARAMETER, {m with err := "address is out of range"})
  else
    let m := {m with brk := addr}
    match mmanIsSane m with
    | (false, m) => (.OE_FAILURE, m)
    | (true, m) => (.OE_OK, m)

/-- The search loop of `_mman_find_gap`: the first VAD whose right gap is at
least `size`, returned as a split `list = pre ++ left :: rest` (the C code
returns the pointers `LEFT = left` and `RIGHT = rest.head?`). -/
def findGapSplit (e size : Nat) : List oe_vad → Option (List oe_vad × oe_vad × List oe_vad)
  | [] => none
  | v :: rest =>
    if size ≤ getRightGap e v rest then some ([], v, rest)
    else match findGapSplit e size rest with
      | some (pre, l, r) => some (v :: pre, l, r)
      | none => none

/-- `_mman_find_gap`: the returned address (`0` is the failure sentinel)
together with the `LEFT`/`RIGHT` out-parameters, and the state (the entry
`_mman_is_sane` call updates `mman->err` when `sanity` is on).  The
fallback `start = mman->map - size` is a `uintptr_t` subtraction: when
`size` exceeds `map` it wraps past zero (`sub64`), the `brk <= start`
guard passes on the wrapped address, and the search returns that wild
address rather than the failure sentinel. -/
def mmanFindGap (m : oe_mman) (size : Nat) :
    (Nat × Option oe_vad × Option oe_vad) × oe_mman :=
  match mmanIsSane m with
  | (false, m') => ((0, none, none), m')
  | (true, m') =>
    match findGapSplit m'.end_ size m'.vad_list with
    | some (_, l, r) => ((vadEnd l, some l, r.head?), m')
    | none =>
      let start := sub64 m'.map size
      if ¬ (m'.brk ≤ start) then ((0, none, none), m')
      else ((start, none, m'.vad_list.head?), m')

/-- The address-and-split computation of `_mman_find_gap`, without the entry
sanity gate (which `oe_mman_map` has already run on the same state, with
the same verdict).  The split records where the `LEFT` pointer points into
the list, which the C code then mutates in place.  The fallback start is
the wrapping `uintptr_t` difference `mman->map - size` (`sub64`): for
`size > map` it lands near the top of the address space and the
`brk <= start` guard does not reject it. -/
def findGapAddr (m : oe_mman) (size : Nat) :
    Nat × Option (List oe_vad × oe_vad × List oe_vad) :=
  match findGapSplit m.end_ size m.vad_list with
  | some (pre, l, r) => (vadEnd l, some (pre, l, r))
  | none =>
    let start := sub64 m.map size
    if ¬ (m.brk ≤ start) then (0, none)
    else (start, none)

/-- `oe_mman_map`.  `addr` is the hint pointer with `0` playing NULL.
Returns the start of the mapped region (`none` models the NULL failure
return).

In the in-list case the C test `left && _end(left) == start` always holds,
because `_mman_find_gap` returned `start = _end(left)` with `left` non-null;
the model takes that branch directly.  In the fallback case `left` is null,
so the C falls through to the `right` coalescing test, and `RIGHT` is the
list head when the list is non-empty.

When the fallback subtraction wraps (`size > map`), the chosen start lies
within `length` bytes of the top of the 64-bit address space, so the
zero-fill `memset((void*)start, 0, length)` that the C code runs before
returning writes outside every mapped region and the call faults instead
of returning: such calls have no completed execution (see `mapCompletes`),
and no theorem below states anything about this function's value on that
path. -/
def oe_mman_map (m : oe_mman) (addr length prot flags : Nat) :
    Option Nat × oe_mman :=
  let m := {m with err := ""}
  if m.magic ≠ OE_HEAP_MAGIC then (none, {m with err := "bad parameter"})
  else match mmanIsSane m with
  | (false, m) => (none, m)
  | (true, m) =>
    if addr ≠ 0 ∧ addr % PAGE_SIZE ≠ 0 then (none, {m with err := "bad addr parameter"})
    else if length = 0 then (none, {m with err := "bad length parameter"})
    else if prot &&& OE_PROT_READ = 0 then
      (none, {m with err := "bad prot parameter: need OE_PROT_READ"})
    else if prot &&& OE_PROT_WRITE = 0 then
      (none, {m with err := "bad prot parameter: need OE_PROT_WRITE"})
    else if prot &&& OE_PROT_EXEC ≠ 0 then
      (none, {m with err := "bad prot parameter: remove OE_PROT_EXEC"})
    else if flags &&& OE_MAP_ANONYMOUS = 0 then
      (none, {m with err := "bad flags parameter: need OE_MAP_ANONYMOUS"})
    else if flags &&& OE_MAP_PRIVATE = 0 then
      (none, {m with err := "bad flags parameter: need OE_MAP_PRIVATE"})
    else if flags &&& OE_MAP_SHARED ≠ 0 then
      (none, {m with err := "bad flags parameter: remove OE_MAP_SHARED"})
    else if flags &&& OE_MAP_FIXED ≠ 0 then
      (none, {m with err := "bad flags parameter: remove OE_MAP_FIXED"})
    else
      let length := (length + PAGE_SIZE - 1) / PAGE_SIZE * PAGE_SIZE
      if addr ≠ 0 then (none, {m with err := "bad addr parameter: must be null"})
      else
        match findGapAddr m length with
        | (start, info) =>
          if start = 0 then (none, {m with err := "out of memory"})
          else
            match info with
            | some (pre, left, rest) =>
              -- Coalesce with LEFT neighbor: left->size += length
              match rest with
              | right :: rest2 =>
                if start + length = right.addr then
                  -- also coalesce with RIGHT neighbor and free its VAD
                  let left2 : oe_vad :=
                    {left with size := ((left.size + length) % U32 + right.size) % U32}
                  (some start, {m with vad_list := pre ++ left2 :: rest2,
                                       avail := m.avail + 1})
                else
                  let left2 : oe_vad := {left with size := (left.size + length) % U32}
                  (some start, {m with vad_list := pre ++ left2 :: right :: rest2})
              | [] =>
                let left2 : oe_vad := {left with size := (left.size + length) % U32}
                (some start, {m with vad_list := pre ++ [left2]})
            | none =>
              match m.vad_list with
              | right :: rest2 =>
                if start + length = right.addr then
                  -- Coalesce with RIGHT neighbor: grow it downward, sync top
                  let right2 : oe_vad :=
                    {right with addr := start, size := (right.size + length) % U32}
                  (some start, {m with vad_list := right2 :: rest2,
                                       map := syncTopVal m.end_ (right2 :: rest2)})
                else
                  -- New VAD inserted before the head (left is null)
                  if m.avail = 0 then
                    (none, {m with err := "unexpected: list insert failed"})
                  else
                    let vad : oe_vad := ⟨start, length % U32, prot % U16, flags % U16⟩
                    (some start,
                     {m with vad_list := vad :: right :: rest2,
                             avail := m.avail - 1,
                             map := syncTopVal m.end_ (vad :: right :: rest2)})
              | [] =>
                if m.avail = 0 then
                  (none, {m with err := "unexpected: list insert failed"})
                else
                  let vad : oe_vad := ⟨start, length % U32, prot % U16, flags % U16⟩
                  (some start,
                   {m with vad_list := [vad],
                           avail := m.avail - 1,
                           map := syncTopVal m.end_ [vad]})

/-- `_list_find`: the first VAD containing `addr`, as a split
`list = pre ++ vad :: rest`. -/
def listFindSplit (addr : Nat) : List oe_vad → Option (List oe_vad × oe_vad × List oe_vad)
  | [] => none
  | v :: rest =>
    if v.addr ≤ addr ∧ addr < vadEnd v then some ([], v, rest)
    else match listFindSplit addr rest with
      | some (pre, x, r) => some (v :: pre, x, r)
      | none => none

/-- `oe_mman_unmap`.  The third component is the list of internal events in
program order on the taken path (list mutations, free-list puts, scrubbing
`memset`s).  In Case4 the C code shrinks `vad->size` *before* the
`_mman_new_vad` call that can fail, which is why the failure state keeps
the shrunk left piece. -/
def oe_mman_unmap (m : oe_mman) (addr length : Nat) :
    oe_result × oe_mman × List MEvent :=
  let m := {m with err := ""}
  if addr = 0 ∨ length = 0 ∨ m.magic ≠ OE_HEAP_MAGIC then
    (.OE_INVALID_PARAMETER, {m with err := "bad parameter"}, [])
  else match mmanIsSane m with
  | (false, m) => (.OE_INVALID_PARAMETER, m, [])
  | (true, m) =>
    if addr % PAGE_SIZE ≠ 0 then
      (.OE_INVALID_PARAMETER, {m with err := "bad addr parameter"}, [])
    else if length % PAGE_SIZE ≠ 0 then
      (.OE_INVALID_PARAMETER, {m with err := "bad length parameter"}, [])
    else
      match listFindSplit addr m.vad_list with
      | none => (.OE_INVALID_PARAMETER, {m with err := "address not found"}, [])
      | some (pre, vad, rest) =>
        if addr + length > vadEnd vad then
          (.OE_INVALID_PARAMETER, {m with err := "illegal range"}, [])
        else
          let res :=
            if vad.addr = addr ∧ vadEnd vad = addr + length then
              -- Case1 [uuuuuuuuuuuuuuuu]: remove, sync, free the VAD
              let list2 := pre ++ rest
              (oe_result.OE_OK,
               {m with vad_list := list2,
                       map := syncTopVal m.end_ list2,
                       avail := m.avail + 1},
               [MEvent.listRemove, MEvent.syncTop, MEvent.freePut])
            else if vad.addr = addr then
              -- Case2 [uuuu............]: advance addr, shrink size, sync
              let vad2 : oe_vad := {vad with addr := vad.addr + length,
                                             size := (vad.size - length) % U32}
              let list2 := pre ++ vad2 :: rest
              (oe_result.OE_OK,
               {m with vad_list := list2, map := syncTopVal m.end_ list2},
               [MEvent.syncTop])
            else if vadEnd vad = addr + length then
              -- Case3 [............uuuu]: shrink size
              (oe_result.OE_OK,
               {m with vad_list := pre ++ {vad with size := (vad.size - length) % U32} :: rest},
               ([] : List MEvent))
            else
              -- Case4 [....uuuu........]: shrink to the left piece first,
              -- then allocate a VAD for the right piece
              let vadL : oe_vad := {vad with size := (addr - vad.addr) % U32}
              if m.avail = 0 then
                (oe_result.OE_FAILURE,
                 {m with err := "out of VADs", vad_list := pre ++ vadL :: rest},
                 ([] : List MEvent))
              else
                let right : oe_vad := ⟨addr + length, (vadEnd vad - (addr + length)) % U32,
                                       vad.prot, vad.flags⟩
                let list2 := pre ++ vadL :: right :: rest
                (oe_result.OE_OK,
                 {m with vad_list := list2,
                         map := syncTopVal m.end_ list2,
                         avail := m.avail - 1},
                 [MEvent.listInsert, MEvent.syncTop])
          match res with
          | (.OE_OK, m2, evs) =>
            let evs := if m2.scrub then evs ++ [MEvent.memsetE addr length 221] else evs
            match mmanIsSane m2 with
            | (false, m3) => (.OE_UNEXPECTED, m3, evs)
            | (true, m3) => (.OE_OK, m3, evs)
          | r => r

/-- `oe_mman_remap`.  Returns the new region address (`none` models the NULL
failure return).  The grow-by-move case re-enters `oe_mman_map` and
`oe_mman_unmap` (the C code holds a recursive mutex for this). -/
def oe_mman_remap (m : oe_mman) (addr old_size new_size flags : Nat) :
    Option Nat × oe_mman :=
  let m := {m with err := ""}
  if m.magic ≠ OE_HEAP_MAGIC ∨ addr = 0 then (none, {m with err := "invalid parameter"})
  else match mmanIsSane m with
  | (false, m) => (none, m)
  | (true, m) =>
    if addr % PAGE_SIZE ≠ 0 then
      (none, {m with err := "bad addr parameter: must be multiple of page size"})
    else if old_size = 0 then
      (none, {m with err := "invalid old_size parameter: must be non-zero"})
    else if new_size = 0 then
      (none, {m with err := "invalid old_size parameter: must be non-zero"})
    else if flags ≠ OE_MREMAP_MAYMOVE then
      (none, {m with err := "invalid flags parameter: must be OE_MREMAP_MAYMOVE"})
    else
      let old_size := roundUpMult old_size PAGE_SIZE
      let new_size := roundUpMult new_size PAGE_SIZE
      let old_end := addr + old_size
      let new_end := addr + new_size
      match listFindSplit addr m.vad_list with
      | none => (none, {m with err := "invalid addr parameter: mapping not found"})
      | some (pre, vad, rest) =>
        if old_end > vadEnd vad then (none, {m with err := "invalid range"})
        else
          let res :=
            if new_size < old_size then
              -- shrinking: split off the rightward excess first
              if vadEnd vad ≠ old_end then
                if m.avail = 0 then (none, {m with err := "out of VADs"})
                else
                  let right : oe_vad := ⟨old_end, (vadEnd vad - old_end) % U32,
                                         vad.prot, vad.flags⟩
                  let vad2 : oe_vad := {vad with size := (new_end - vad.addr) % U32}
                  let list2 := pre ++ vad2 :: right :: rest
                  (some addr, {m with vad_list := list2,
                                      map := syncTopVal m.end_ list2,
                                      avail := m.avail - 1})
              else
                let vad2 : oe_vad := {vad with size := (new_end - vad.addr) % U32}
                (some addr, {m with vad_list := pre ++ vad2 :: rest})
            else if new_size > old_size then
              let delta := new_size - old_size
              if vadEnd vad = old_end ∧ delta ≤ getRightGap m.end_ vad rest then
                -- grow in place, possibly coalescing with the next VAD
                let vad2 : oe_vad := {vad with size := (vad.size + delta) % U32}
                match rest with
                | next :: rest2 =>
                  if vadEnd vad2 = next.addr then
                    let vad3 : oe_vad := {vad2 with size := (vad2.size + next.size) % U32}
                    let list2 := pre ++ vad3 :: rest2
                    (some addr, {m with vad_list := list2,
                                        map := syncTopVal m.end_ list2,
                                        avail := m.avail + 1})
                  else (some addr, {m with vad_list := pre ++ vad2 :: next :: rest2})
                | [] => (some addr, {m with vad_list := pre ++ [vad2]})
              else
                -- grow by moving: map a new area, copy, unmap the old
                match oe_mman_map m 0 new_size vad.prot vad.flags with
                | (none, m1) => (none, {m1 with err := "mapping failed"})
                | (some a, m1) =>
                  match oe_mman_unmap m1 addr old_size with
                  | (.OE_OK, m2, _) => (some a, m2)
                  | (_, m2, _) => (none, {m2 with err := "unmapping failed"})
            else
              -- no change in size
              (some addr, m)
          match res with
          | (none, m2) => (none, m2)
          | (some a, m2) =>
            match mmanIsSane m2 with
            | (false, m3) => (none, m3)
            | (true, m3) => (some a, m3)

/-- `oe_mman_set_sanity`. -/
def oe_mman_set_sanity (m : oe_mman) (sanity : Bool) : oe_mman :=
  {m with sanity := sanity}

end MmanModel

namespace MmanModel

/-! ## Invariants and reachability -/

/-- The gap-separation relation between regions: `p` ends strictly below the
start of `q`. -/
def gapRel (p q : oe_vad) : Prop := vadEnd p < q.addr

instance : DecidableRel gapRel := fun _ _ => inferInstanceAs (Decidable (_ < _))

theorem addr_le_vadEnd (v : oe_vad) : v.addr ≤ vadEnd v := Nat.le_add_right _ _

instance : IsTrans oe_vad gapRel :=
  ⟨fun _ b _ h1 h2 => lt_of_le_of_lt (le_trans (le_of_lt h1) (addr_le_vadEnd b)) h2⟩

instance : IsIrrefl oe_vad gapRel :=
  ⟨fun a h => absurd (lt_of_le_of_lt (addr_le_vadEnd a) h) (lt_irrefl _)⟩

/-- The VAD-list shape maintained by the manager: strictly gap-separated in
list order, with every region ending at or below `e`. -/
def listOk (e : Nat) (l : List oe_vad) : Prop :=
  List.Chain' gapRel l ∧ ∀ v ∈ l, vadEnd v ≤ e

/-- Frontier coherence: `map` is the address of the first list element, or
`end` when the list is empty (the value `_mman_sync_top` maintains). -/
def topOk (m : oe_mman) : Prop := m.map = syncTopVal m.end_ m.vad_list

/-- The inductive invariant of reachable manager states. -/
def StrongInv (m : oe_mman) : Prop :=
  m.magic = OE_HEAP_MAGIC ∧ m.inited = true ∧ m.sanity = false ∧
  0 < m.start ∧ m.start ≤ m.brk ∧ m.brk ≤ m.map ∧ m.map ≤ m.end_ ∧
  listOk m.end_ m.vad_list ∧ topOk m

/-- The condition under which a successful `oe_mman_map` call actually
returns.  Before returning, the C code zero-fills the chosen region with
`memset((void*)start, 0, length)`.  When an interior gap was used, or the
fallback subtraction `mman->map - size` did not wrap (rounded length at
most `map`), the zeroed range lies inside the managed heap and the call
completes.  When the fallback wrapped, the range starts within `length`
bytes of the top of the 64-bit address space (or wraps around address 0),
leaves every mapped region, and the `memset` faults: the call never
returns.  Completed executions are therefore exactly those satisfying this
predicate. -/
def mapCompletes (m : oe_mman) (length : Nat) : Prop :=
  findGapSplit m.end_ ((length + PAGE_SIZE - 1) / PAGE_SIZE * PAGE_SIZE) m.vad_list ≠ none
    ∨ (length + PAGE_SIZE - 1) / PAGE_SIZE * PAGE_SIZE ≤ m.map

instance (m : oe_mman) (length : Nat) : Decidable (mapCompletes m length) :=
  inferInstanceAs (Decidable (_ ∨ _))

/-- The condition under which a successful `oe_mman_remap` call actually
returns: if the grow-by-move path is reached, its nested `oe_mman_map`
must complete (the other paths run no `memset`/`memcpy` outside live
regions and always return). -/
def remapCompletes (m : oe_mman) (addr old_size new_size : Nat) : Prop :=
  ∀ pre vad rest, listFindSplit addr m.vad_list = some (pre, vad, rest) →
    roundUpMult old_size PAGE_SIZE < roundUpMult new_size PAGE_SIZE →
    ¬(vadEnd vad = addr + roundUpMult old_size PAGE_SIZE ∧
      roundUpMult new_size PAGE_SIZE - roundUpMult old_size PAGE_SIZE
        ≤ getRightGap m.end_ vad rest) →
    mapCompletes m (roundUpMult new_size PAGE_SIZE)

/-- States reachable by sequences of successful and completed public
operations starting from a successful `oe_mman_init`.  The `map` and
`remap` steps carry the completion conditions above: a call whose
zero-fill `memset` faults mutates the manager but never returns, so no
state is observed through it. -/
inductive Reach : oe_mman → Prop
  | init : ∀ b s m, oe_mman_init b s = some m → Reach m
  | brkOp : ∀ m a m', Reach m → oe_mman_brk m a = (.OE_OK, m') → Reach m'
  | sbrkOp : ∀ m i p m', Reach m → oe_mman_sbrk m i = (some p, m') → Reach m'
  | mapOp : ∀ m a l pr fl p m', Reach m →
      oe_mman_map m a l pr fl = (some p, m') → mapCompletes m l → Reach m'
  | unmapOp : ∀ m a l m' t, Reach m →
      oe_mman_unmap m a l = (.OE_OK, m', t) → Reach m'
  | remapOp : ∀ m a os ns fl p m', Reach m →
      oe_mman_remap m a os ns fl = (some p, m') → remapCompletes m a os ns → Reach m'

/-! ## List surgery lemmas -/

theorem listOk_pairwise {e : ℕ} {l : List oe_vad} (h : listOk e l) :
    List.Pairwise gapRel l :=
  List.chain'_iff_pairwise.mp h.1

theorem gapRel_of_le {x v v' : oe_vad} (h : gapRel x v) (ha : v.addr ≤ v'.addr) :
    gapRel x v' := lt_of_lt_of_le h ha

theorem listOk_split {e : ℕ} {pre rest : List oe_vad} {v : oe_vad}
    (h : listOk e (pre ++ v :: rest)) :
    List.Chain' gapRel pre ∧ List.Chain' gapRel (v :: rest) ∧
      (∀ x ∈ pre.getLast?, gapRel x v) ∧ (∀ w ∈ rest.head?, gapRel v w) ∧
      (∀ x ∈ pre, vadEnd x ≤ e) ∧ vadEnd v ≤ e ∧ (∀ x ∈ rest, vadEnd x ≤ e) := by
  obtain ⟨hc, hb⟩ := h
  rw [List.chain'_append] at hc
  obtain ⟨h1, h2, h3⟩ := hc
  refine ⟨h1, h2, ?_, ?_, ?_, ?_, ?_⟩
  · intro x hx
    exact h3 x hx v rfl
  · exact (List.chain'_cons'.mp h2).1
  · intro x hx; exact hb x (List.mem_append_left _ hx)
  · exact hb v (List.mem_append_right _ (List.mem_cons_self _ _))
  · intro x hx; exact hb x (List.mem_append_right _ (List.mem_cons_of_mem _ hx))

theorem listOk_join {e : ℕ} {pre rest : List oe_vad} {v : oe_vad}
    (h1 : List.Chain' gapRel pre) (h2 : List.Chain' gapRel (v :: rest))
    (h3 : ∀ x ∈ pre.getLast?, gapRel x v)
    (hb1 : ∀ x ∈ pre, vadEnd x ≤ e) (hb2 : ∀ x ∈ v :: rest, vadEnd x ≤ e) :
    listOk e (pre ++ v :: rest) := by
  constructor
  · rw [List.chain'_append]
    refine ⟨h1, h2, ?_⟩
    intro x hx y hy
    cases hy
    exact h3 x hx
  · intro x hx
    rcases List.mem_append.mp hx with hx | hx
    · exact hb1 x hx
    · exact hb2 x hx

/-- Replace the element at a split position.  The replacement must respect
the left boundary (`h1`), the right boundary (`h2`) and the end bound
(`h3`). -/
theorem listOk_replace {e : ℕ} {pre rest : List oe_vad} {v v' : oe_vad}
    (h : listOk e (pre ++ v :: rest))
    (h1 : ∀ x ∈ pre.getLast?, gapRel x v')
    (h2 : ∀ w ∈ rest.head?, vadEnd v' < w.addr)
    (h3 : vadEnd v' ≤ e) :
    listOk e (pre ++ v' :: rest) := by
  obtain ⟨hc1, hc2, _, _, hb1, _, hb3⟩ := listOk_split h
  refine listOk_join hc1 ?_ h1 hb1 ?_
  · rw [List.chain'_cons']
    exact ⟨h2, (List.chain'_cons'.mp hc2).2⟩
  · intro x hx
    rcases List.mem_cons.mp hx with rfl | hx
    · exact h3
    · exact hb3 x hx

/-- Variant of `listOk_replace` where the replacement keeps the address of
the replaced element, so the left boundary carries over. -/
theorem listOk_replace_same_addr {e : ℕ} {pre rest : List oe_vad} {v v' : oe_vad}
    (h : listOk e (pre ++ v :: rest))
    (haddr : v.addr ≤ v'.addr)
    (h2 : ∀ w ∈ rest.head?, vadEnd v' < w.addr)
    (h3 : vadEnd v' ≤ e) :
    listOk e (pre ++ v' :: rest) := by
  obtain ⟨_, _, hL, _, _, _, _⟩ := listOk_split h
  exact listOk_replace h (fun x hx => gapRel_of_le (hL x hx) haddr) h2 h3

/-- Remove the element at a split position. -/
theorem listOk_remove {e : ℕ} {pre rest : List oe_vad} {v : oe_vad}
    (h : listOk e (pre ++ v :: rest)) :
    listOk e (pre ++ rest) := by
  obtain ⟨hc1, hc2, hL, hR, hb1, _, hb3⟩ := listOk_split h
  rcases rest with _ | ⟨w, rest⟩
  · simp only [List.append_nil]
    exact ⟨hc1, hb1⟩
  · refine listOk_join hc1 ((List.chain'_cons'.mp hc2).2) ?_ hb1 ?_
    · intro x hx
      exact IsTrans.trans x v w (hL x hx) (hR w rfl)
    · intro x hx
      exact hb3 x hx

/-- Replace the element at a split position and drop its successor
(coalescing): the merged element must stay within the dropped successor's
extent. -/
theorem listOk_replace_drop {e : ℕ} {pre rest : List oe_vad} {v w v' : oe_vad}
    (h : listOk e (pre ++ v :: w :: rest))
    (h1 : ∀ x ∈ pre.getLast?, gapRel x v')
    (h2 : vadEnd v' ≤ vadEnd w) :
    listOk e (pre ++ v' :: rest) := by
  obtain ⟨hc1, hc2, _, _, hb1, _, hb3⟩ := listOk_split h
  have hc2' := (List.chain'_cons'.mp hc2).2
  have hw : ∀ x ∈ rest.head?, vadEnd v' < x.addr := by
    intro x hx
    exact lt_of_le_of_lt h2 ((List.chain'_cons'.mp hc2').1 x hx)
  refine listOk_join hc1 ?_ h1 hb1 ?_
  · rw [List.chain'_cons']
    exact ⟨hw, (List.chain'_cons'.mp hc2').2⟩
  · intro x hx
    rcases List.mem_cons.mp hx with rfl | hx
    · exact le_trans h2 (hb3 w (List.mem_cons_self _ _))
    · exact hb3 x (List.mem_cons_of_mem _ hx)

/-- Replace the element at a split position by two elements (splitting a
region). -/
theorem listOk_replace2 {e : ℕ} {pre rest : List oe_vad} {v a b : oe_vad}
    (h : listOk e (pre ++ v :: rest))
    (h1 : ∀ x ∈ pre.getLast?, gapRel x a)
    (hab : gapRel a b)
    (h2 : ∀ w ∈ rest.head?, vadEnd b < w.addr)
    (h3 : vadEnd a ≤ e) (h4 : vadEnd b ≤ e) :
    listOk e (pre ++ a :: b :: rest) := by
  obtain ⟨hc1, hc2, _, _, hb1, _, hb3⟩ := listOk_split h
  refine listOk_join hc1 ?_ h1 hb1 ?_
  · rw [List.chain'_cons]
    refine ⟨hab, ?_⟩
    rw [List.chain'_cons']
    exact ⟨h2, (List.chain'_cons'.mp hc2).2⟩
  · intro x hx
    rcases List.mem_cons.mp hx with rfl | hx
    · exact h3
    · rcases List.mem_cons.mp hx with rfl | hx
      · exact h4
      · exact hb3 x hx

/-- The head address of a list is unchanged by replacing a split element
with one of the same address. -/
theorem syncTopVal_congr {e : ℕ} {pre rest rest' : List oe_vad} {v v' : oe_vad}
    (haddr : v'.addr = v.addr) :
    syncTopVal e (pre ++ v' :: rest') = syncTopVal e (pre ++ v :: rest) := by
  cases pre with
  | nil => simp [syncTopVal, haddr]
  | cons p pre => simp [syncTopVal]

end MmanModel

namespace MmanModel

/-! ## Characterization of the search loops -/

theorem findGapSplit_some (e S : ℕ) (l : List oe_vad) :
    ∀ pvr, findGapSplit e S l = some pvr →
      l = pvr.1 ++ pvr.2.1 :: pvr.2.2 ∧ S ≤ getRightGap e pvr.2.1 pvr.2.2 := by
  induction l with
  | nil => intro pvr h; simp [findGapSplit] at h
  | cons x t ih =>
    intro pvr h
    rw [findGapSplit] at h
    by_cases hfit : S ≤ getRightGap e x t
    · rw [if_pos hfit] at h
      obtain rfl := Option.some.inj h
      exact ⟨rfl, hfit⟩
    · rw [if_neg hfit] at h
      cases hrec : findGapSplit e S t with
      | none => rw [hrec] at h; simp at h
      | some pr =>
        obtain ⟨pre', v', rest'⟩ := pr
        rw [hrec] at h
        obtain rfl := Option.some.inj h
        obtain ⟨hshape, hgap⟩ := ih (pre', v', rest') hrec
        exact ⟨by rw [hshape]; rfl, hgap⟩

theorem findGapSplit_none (e S : ℕ) (l : List oe_vad) :
    findGapSplit e S l = none →
      ∀ (p2 : List oe_vad) (w : oe_vad) (r2 : List oe_vad),
        l = p2 ++ w :: r2 → getRightGap e w r2 < S := by
  induction l with
  | nil => intro _ p2 w r2 hl; simp at hl
  | cons x t ih =>
    intro h p2 w r2 hl
    rw [findGapSplit] at h
    by_cases hfit : S ≤ getRightGap e x t
    · rw [if_pos hfit] at h; simp at h
    · rw [if_neg hfit] at h
      cases hrec : findGapSplit e S t with
      | some pr => rw [hrec] at h; simp at h
      | none =>
        cases p2 with
        | nil =>
          obtain ⟨rfl, rfl⟩ : x = w ∧ t = r2 := by simpa using hl
          exact Nat.lt_of_not_le hfit
        | cons y p2' =>
          have hy : x = y ∧ t = p2' ++ w :: r2 := by simpa using hl
          exact ih hrec p2' w r2 hy.2

/-- Minimality of the first fit: on a gap-separated list, any other fitting
position has an end address at least as large. -/
theorem findGapSplit_min (e S : ℕ) (l : List oe_vad) :
    List.Chain' gapRel l →
    ∀ pvr, findGapSplit e S l = some pvr →
      ∀ (p2 : List oe_vad) (w : oe_vad) (r2 : List oe_vad),
        l = p2 ++ w :: r2 → S ≤ getRightGap e w r2 → vadEnd pvr.2.1 ≤ vadEnd w := by
  induction l with
  | nil => intro _ pvr h; simp [findGapSplit] at h
  | cons x t ih =>
    intro hc pvr h p2 w r2 hl hfit2
    rw [findGapSplit] at h
    by_cases hfit : S ≤ getRightGap e x t
    · rw [if_pos hfit] at h
      obtain rfl := Option.some.inj h
      cases p2 with
      | nil =>
        obtain ⟨rfl, rfl⟩ : x = w ∧ t = r2 := by simpa using hl
        exact le_refl _
      | cons y p2' =>
        obtain ⟨rfl, ht⟩ : x = y ∧ t = p2' ++ w :: r2 := by simpa using hl
        have hw : w ∈ t := by rw [ht]; simp
        have hpw : gapRel x w := by
          have := List.chain'_iff_pairwise.mp hc
          exact (List.pairwise_cons.mp this).1 w hw
        exact le_trans (le_of_lt hpw) (addr_le_vadEnd w)
    · rw [if_neg hfit] at h
      cases hrec : findGapSplit e S t with
      | none => rw [hrec] at h; simp at h
      | some pr =>
        obtain ⟨pre', v', rest'⟩ := pr
        rw [hrec] at h
        obtain rfl := Option.some.inj h
        cases p2 with
        | nil =>
          obtain ⟨rfl, rfl⟩ : x = w ∧ t = r2 := by simpa using hl
          exact absurd hfit2 hfit
        | cons y p2' =>
          have hy : x = y ∧ t = p2' ++ w :: r2 := by simpa using hl
          exact ih (List.Chain'.tail hc) (pre', v', rest') hrec p2' w r2 hy.2 hfit2

theorem listFindSplit_some (a : ℕ) (l : List oe_vad) :
    ∀ pvr, listFindSplit a l = some pvr →
      l = pvr.1 ++ pvr.2.1 :: pvr.2.2 ∧ pvr.2.1.addr ≤ a ∧ a < vadEnd pvr.2.1 := by
  induction l with
  | nil => intro pvr h; simp [listFindSplit] at h
  | cons x t ih =>
    intro pvr h
    rw [listFindSplit] at h
    by_cases hin : x.addr ≤ a ∧ a < vadEnd x
    · rw [if_pos hin] at h
      obtain rfl := Option.some.inj h
      exact ⟨rfl, hin⟩
    · rw [if_neg hin] at h
      cases hrec : listFindSplit a t with
      | none => rw [hrec] at h; simp at h
      | some pr =>
        obtain ⟨pre', v', rest'⟩ := pr
        rw [hrec] at h
        obtain rfl := Option.some.inj h
        obtain ⟨hshape, hmem⟩ := ih (pre', v', rest') hrec
        exact ⟨by rw [hshape]; rfl, hmem⟩

/-! ## Facts about `syncTopVal` -/

theorem syncTopVal_le_end {e : ℕ} {l : List oe_vad}
    (hb : ∀ v ∈ l, vadEnd v ≤ e) : syncTopVal e l ≤ e := by
  cases l with
  | nil => exact le_refl _
  | cons v t =>
    exact le_trans (addr_le_vadEnd v) (hb v (List.mem_cons_self _ _))

theorem syncTopVal_le_addr {e : ℕ} {l : List oe_vad}
    (hc : List.Chain' gapRel l) : ∀ v ∈ l, syncTopVal e l ≤ v.addr := by
  cases l with
  | nil => intro v hv; exact absurd hv (List.not_mem_nil v)
  | cons x t =>
    intro v hv
    rcases List.mem_cons.mp hv with rfl | hv
    · exact le_refl _
    · have := List.chain'_iff_pairwise.mp hc
      have hrel := (List.pairwise_cons.mp this).1 v hv
      exact le_trans (addr_le_vadEnd x) (le_of_lt hrel)

end MmanModel

namespace MmanModel

/-! ## Arithmetic helpers -/

theorem le_roundUpMult_page (x : ℕ) : x ≤ roundUpMult x PAGE_SIZE := by
  simp only [roundUpMult, PAGE_SIZE]
  omega

theorem roundUpMult_page_le {x y : ℕ} (hdvd : y % PAGE_SIZE = 0) (hxy : x ≤ y) :
    roundUpMult x PAGE_SIZE ≤ y := by
  simp only [roundUpMult, PAGE_SIZE] at *
  omega

theorem roundUpMult_page_pos {x : ℕ} (hx : 0 < x) : 0 < roundUpMult x PAGE_SIZE := by
  have := le_roundUpMult_page x
  omega

theorem mmanIsSane_false {m : oe_mman} (hs : m.sanity = false) :
    mmanIsSane m = (true, m) := by
  simp [mmanIsSane, hs]

/-! ## Preservation of the invariant by each operation -/

/-- A successful `oe_mman_init` establishes the invariant. -/
theorem init_inv (b s : ℕ) (m : oe_mman) (h : oe_mman_init b s = some m) :
    StrongInv m := by
  simp only [oe_mman_init] at h
  by_cases h1 : b = 0 ∨ s = 0
  · rw [if_pos h1] at h; exact absurd h (by simp)
  rw [if_neg h1] at h
  by_cases h2 : b % PAGE_SIZE ≠ 0
  · rw [if_pos h2] at h; exact absurd h (by simp)
  rw [if_neg h2] at h
  by_cases h3 : s % PAGE_SIZE ≠ 0
  · rw [if_pos h3] at h; exact absurd h (by simp)
  rw [if_neg h3] at h
  rw [not_not] at h2 h3
  push_neg at h1
  obtain rfl := Option.some.inj h
  have hb : 0 < b := Nat.pos_of_ne_zero h1.1
  have hstart : 0 < roundUpMult (b + s / PAGE_SIZE * VAD_SIZEOF) PAGE_SIZE :=
    roundUpMult_page_pos (by omega)
  have hds : s / PAGE_SIZE * PAGE_SIZE = s :=
    Nat.div_mul_cancel (Nat.dvd_of_mod_eq_zero h3)
  have hle : roundUpMult (b + s / PAGE_SIZE * VAD_SIZEOF) PAGE_SIZE ≤ b + s := by
    refine roundUpMult_page_le (by rw [Nat.add_mod, h2, h3]; rfl) ?_
    have hmul : s / PAGE_SIZE * VAD_SIZEOF ≤ s / PAGE_SIZE * PAGE_SIZE :=
      Nat.mul_le_mul_left _ (by norm_num [VAD_SIZEOF, PAGE_SIZE])
    omega
  refine ⟨rfl, rfl, rfl, hstart, le_refl _, hle, le_refl _, ?_, rfl⟩
  exact ⟨List.chain'_nil, fun v hv => absurd hv (List.not_mem_nil v)⟩

/-- A successful `oe_mman_brk` preserves the invariant. -/
theorem brk_inv (m : oe_mman) (a : ℕ) (m' : oe_mman) (hInv : StrongInv m)
    (h : oe_mman_brk m a = (.OE_OK, m')) : StrongInv m' := by
  obtain ⟨hmg, hin, hs, h0, hsb, hbm, hme, hlo, htop⟩ := hInv
  simp only [oe_mman_brk, mmanIsSane, hs] at h
  split at h
  · simp at h
  · next hcond =>
    push_neg at hcond
    simp only [Bool.false_eq_true, if_false, Prod.mk.injEq] at h
    obtain ⟨-, rfl⟩ := h
    exact ⟨hmg, hin, rfl, h0, hcond.1, le_of_lt hcond.2, hme, hlo, htop⟩

/-- A successful `oe_mman_sbrk` preserves the invariant. -/
theorem sbrk_inv (m : oe_mman) (i : Int) (p : ℕ) (m' : oe_mman) (hInv : StrongInv m)
    (h : oe_mman_sbrk m i = (some p, m')) : StrongInv m' := by
  obtain ⟨hmg, hin, hs, h0, hsb, hbm, hme, hlo, htop⟩ := hInv
  simp only [oe_mman_sbrk, mmanIsSane, hs, Bool.false_eq_true, if_false] at h
  split at h
  · next hz =>
    simp only [Prod.mk.injEq] at h
    obtain ⟨-, rfl⟩ := h
    exact ⟨hmg, hin, rfl, h0, hsb, hbm, hme, hlo, htop⟩
  · split at h
    · next hle =>
      simp only [Prod.mk.injEq] at h
      obtain ⟨-, rfl⟩ := h
      refine ⟨hmg, hin, rfl, h0, le_trans hsb (Nat.le_add_right _ _), ?_, hme, hlo, htop⟩
      simp only
      omega
    · simp at h

end MmanModel

namespace MmanModel

theorem findGapAddr_eq_some {m : oe_mman} {S start : ℕ}
    {pre rest : List oe_vad} {left : oe_vad}
    (h : findGapAddr m S = (start, some (pre, left, rest))) :
    findGapSplit m.end_ S m.vad_list = some (pre, left, rest) ∧ start = vadEnd left := by
  unfold findGapAddr at h
  split at h
  · next pre' left' rest' heq =>
    simp only [Prod.mk.injEq, Option.some.injEq] at h
    obtain ⟨h1, h2, h3, h4⟩ := h
    subst h2 h3 h4
    exact ⟨heq, h1.symm⟩
  · next heq =>
    dsimp only at h
    split at h <;> simp at h

theorem findGapAddr_eq_none {m : oe_mman} {S start : ℕ}
    (h : findGapAddr m S = (start, none)) (hstart : start ≠ 0) :
    findGapSplit m.end_ S m.vad_list = none ∧ start = sub64 m.map S ∧ m.brk ≤ start := by
  unfold findGapAddr at h
  split at h
  · next pre' left' rest' heq => simp at h
  · next heq =>
    dsimp only at h
    split at h
    · simp only [Prod.mk.injEq] at h
      exact absurd h.1.symm hstart
    · next hguard =>
      simp only [Prod.mk.injEq] at h
      rw [not_not] at hguard
      exact ⟨heq, h.1.symm, h.1 ▸ hguard⟩

end MmanModel

namespace MmanModel

set_option maxHeartbeats 2000000 in
/-- A successful `oe_mman_map` preserves the invariant. -/
theorem map_inv (m : oe_mman) (a l pr fl : ℕ) (p : ℕ) (m' : oe_mman) (hInv : StrongInv m)
    (h : oe_mman_map m a l pr fl = (some p, m')) (hc : mapCompletes m l) :
    StrongInv m' := by
  obtain ⟨hmg, hin, hs, h0, hsb, hbm, hme, hlo, htop⟩ := hInv
  have htopE : m.map = syncTopVal m.end_ m.vad_list := htop
  simp only [oe_mman_map] at h
  simp only [mmanIsSane, hs, Bool.false_eq_true, if_false] at h
  rw [if_neg (by simp [hmg])] at h
  by_cases c1 : a ≠ 0 ∧ a % PAGE_SIZE ≠ 0
  · rw [if_pos c1] at h; exact Option.noConfusion (congrArg Prod.fst h)
  rw [if_neg c1] at h
  by_cases c2 : l = 0
  · rw [if_pos c2] at h; exact Option.noConfusion (congrArg Prod.fst h)
  rw [if_neg c2] at h
  by_cases c3 : pr &&& OE_PROT_READ = 0
  · rw [if_pos c3] at h; exact Option.noConfusion (congrArg Prod.fst h)
  rw [if_neg c3] at h
  by_cases c4 : pr &&& OE_PROT_WRITE = 0
  · rw [if_pos c4] at h; exact Option.noConfusion (congrArg Prod.fst h)
  rw [if_neg c4] at h
  by_cases c5 : pr &&& OE_PROT_EXEC ≠ 0
  · rw [if_pos c5] at h; exact Option.noConfusion (congrArg Prod.fst h)
  rw [if_neg c5] at h
  by_cases c6 : fl &&& OE_MAP_ANONYMOUS = 0
  · rw [if_pos c6] at h; exact Option.noConfusion (congrArg Prod.fst h)
  rw [if_neg c6] at h
  by_cases c7 : fl &&& OE_MAP_PRIVATE = 0
  · rw [if_pos c7] at h; exact Option.noConfusion (congrArg Prod.fst h)
  rw [if_neg c7] at h
  by_cases c8 : fl &&& OE_MAP_SHARED ≠ 0
  · rw [if_pos c8] at h; exact Option.noConfusion (congrArg Prod.fst h)
  rw [if_neg c8] at h
  by_cases c9 : fl &&& OE_MAP_FIXED ≠ 0
  · rw [if_pos c9] at h; exact Option.noConfusion (congrArg Prod.fst h)
  rw [if_neg c9] at h
  by_cases c10 : a ≠ 0
  · rw [if_pos c10] at h; exact Option.noConfusion (congrArg Prod.fst h)
  rw [if_neg c10] at h
  rcases hfg : findGapAddr {m with sanity := false, err := ""}
      ((l + PAGE_SIZE - 1) / PAGE_SIZE * PAGE_SIZE) with ⟨start, info⟩
  rw [hfg] at h
  simp only at h
  by_cases hstart : start = 0
  · rw [if_pos hstart] at h; exact Option.noConfusion (congrArg Prod.fst h)
  rw [if_neg hstart] at h
  set L : ℕ := (l + PAGE_SIZE - 1) / PAGE_SIZE * PAGE_SIZE with hLdef
  have hLpos : 0 < L := by
    rw [hLdef]
    simp only [PAGE_SIZE]
    omega
  cases info with
  | some plr =>
    obtain ⟨pre, left, rest⟩ := plr
    obtain ⟨hsplit, rfl⟩ := findGapAddr_eq_some hfg
    simp only at hsplit
    obtain ⟨hshape, hgap⟩ := findGapSplit_some _ _ _ _ hsplit
    simp only at hshape hgap
    rw [hshape] at hlo htopE
    obtain ⟨hcpre, hccons, hL, hR, hbpre, hbv, hbrest⟩ := listOk_split hlo
    dsimp only at h
    cases rest with
    | cons right rest2 =>
      dsimp only at h
      simp only [getRightGap] at hgap
      have hlt : vadEnd left < right.addr := hR right rfl
      have hgap' : vadEnd left + L ≤ right.addr := by omega
      by_cases hco : vadEnd left + L = right.addr
      · rw [if_pos hco] at h
        simp only [Prod.mk.injEq, Option.some.injEq] at h
        obtain ⟨rfl, rfl⟩ := h
        have hend2 : vadEnd {left with size := ((left.size + L) % U32 + right.size) % U32}
            ≤ vadEnd right := by
          have m1 : (left.size + L) % U32 ≤ left.size + L := Nat.mod_le _ _
          have m2 : ((left.size + L) % U32 + right.size) % U32
              ≤ (left.size + L) % U32 + right.size := Nat.mod_le _ _
          simp only [vadEnd] at hco ⊢
          omega
        refine ⟨hmg, hin, rfl, h0, hsb, hbm, hme, ?_, ?_⟩
        · exact listOk_replace_drop hlo (fun x hx => gapRel_of_le (hL x hx) (le_refl _)) hend2
        · dsimp only [topOk]
          rw [htopE]
          refine Eq.symm (syncTopVal_congr ?_)
          rfl
      · rw [if_neg hco] at h
        simp only [Prod.mk.injEq, Option.some.injEq] at h
        obtain ⟨rfl, rfl⟩ := h
        have hend2 : vadEnd {left with size := (left.size + L) % U32} < right.addr := by
          have m1 : (left.size + L) % U32 ≤ left.size + L := Nat.mod_le _ _
          simp only [vadEnd] at hgap' hco ⊢
          omega
        refine ⟨hmg, hin, rfl, h0, hsb, hbm, hme, ?_, ?_⟩
        · refine listOk_replace_same_addr hlo (le_refl _) ?_ ?_
          · intro w hw
            obtain rfl : right = w := by simpa using hw
            exact hend2
          · exact le_trans (le_of_lt hend2)
              (le_trans (addr_le_vadEnd right) (hbrest right (List.mem_cons_self _ _)))
        · dsimp only [topOk]
          rw [htopE]
          refine Eq.symm (syncTopVal_congr ?_)
          rfl
    | nil =>
      dsimp only at h
      simp only [getRightGap, vadEnd] at hgap
      simp only [Prod.mk.injEq, Option.some.injEq] at h
      obtain ⟨rfl, rfl⟩ := h
      have hend2 : vadEnd {left with size := (left.size + L) % U32} ≤ m.end_ := by
        have m1 : (left.size + L) % U32 ≤ left.size + L := Nat.mod_le _ _
        simp only [vadEnd] at hbv ⊢
        omega
      refine ⟨hmg, hin, rfl, h0, hsb, hbm, hme, ?_, ?_⟩
      · refine listOk_replace_same_addr hlo (le_refl _) ?_ hend2
        intro w hw
        simp at hw
      · dsimp only [topOk]
        rw [htopE]
        refine Eq.symm (syncTopVal_congr ?_)
        rfl
  | none =>
    obtain ⟨hsplit, hstartval, hbrk⟩ := findGapAddr_eq_none hfg hstart
    simp only at hsplit hstartval hbrk
    have hbrkpos : 0 < m.brk := lt_of_lt_of_le h0 hsb
    have hLle : L ≤ m.map := by
      rcases hc with hc1 | hc2
      · rw [hLdef] at hsplit
        exact absurd hsplit hc1
      · exact hc2
    rw [hLdef] at hsplit
    rw [sub64, if_pos hLle] at hstartval
    have hLmap : start + L = m.map := by omega
    cases hvl : m.vad_list with
    | cons right rest2 =>
      rw [hvl] at h
      dsimp only at h
      rw [htopE, hvl] at hLmap
      simp only [syncTopVal] at hLmap
      rw [if_pos hLmap] at h
      simp only [Prod.mk.injEq, Option.some.injEq] at h
      obtain ⟨rfl, rfl⟩ := h
      rw [hvl] at hlo
      have hbright : vadEnd right ≤ m.end_ := hlo.2 right (List.mem_cons_self _ _)
      have hend2 : vadEnd {right with addr := start, size := (right.size + L) % U32}
          ≤ vadEnd right := by
        have m1 : (right.size + L) % U32 ≤ right.size + L := Nat.mod_le _ _
        simp only [vadEnd] at hLmap ⊢
        omega
      have hlo2 : listOk m.end_
          ({right with addr := start, size := (right.size + L) % U32} :: rest2) := by
        have := @listOk_replace m.end_ [] rest2 right
          {right with addr := start, size := (right.size + L) % U32}
          (by simpa using hlo)
          (by intro x hx; simp at hx)
          (by
            intro w hw
            have hch := (List.chain'_cons'.mp hlo.1).1 w hw
            exact lt_of_le_of_lt hend2 hch)
          (le_trans hend2 hbright)
        simpa using this
      refine ⟨hmg, hin, rfl, h0, hsb, ?_, ?_, hlo2, rfl⟩
      · dsimp only
        simp only [syncTopVal]
        exact hbrk
      · dsimp only
        simp only [syncTopVal]
        omega
    | nil =>
      rw [hvl] at h
      dsimp only at h
      rw [htopE, hvl] at hLmap
      simp only [syncTopVal] at hLmap
      by_cases hav : m.avail = 0
      · rw [if_pos hav] at h; exact Option.noConfusion (congrArg Prod.fst h)
      rw [if_neg hav] at h
      simp only [Prod.mk.injEq, Option.some.injEq] at h
      obtain ⟨rfl, rfl⟩ := h
      have hend2 : vadEnd ⟨start, L % U32, pr % U16, fl % U16⟩ ≤ m.end_ := by
        have m1 : L % U32 ≤ L := Nat.mod_le _ _
        simp only [vadEnd]
        omega
      refine ⟨hmg, hin, rfl, h0, hsb, ?_, ?_, ?_, rfl⟩
      · dsimp only
        simp only [syncTopVal]
        exact hbrk
      · dsimp only
        simp only [syncTopVal]
        omega
      · refine ⟨List.chain'_singleton _, ?_⟩
        intro v hv
        obtain rfl : v = ⟨start, L % U32, pr % U16, fl % U16⟩ := by simpa using hv
        exact hend2

end MmanModel

namespace MmanModel

/-- Replacing a split element by one with an address at least as large can
only move the head address up. -/
theorem syncTopVal_mono (e : ℕ) (pre : List oe_vad) (v v' : oe_vad)
    (rest rest' : List oe_vad) (haddr : v.addr ≤ v'.addr) :
    syncTopVal e (pre ++ v :: rest) ≤ syncTopVal e (pre ++ v' :: rest') := by
  cases pre with
  | nil => simpa [syncTopVal] using haddr
  | cons p t => simp [syncTopVal]

/-- Removing a split element can only move the head address up (given the
chain and bound facts of the original list). -/
theorem syncTopVal_remove_le {e : ℕ} {pre rest : List oe_vad} {v : oe_vad}
    (h : listOk e (pre ++ v :: rest)) :
    syncTopVal e (pre ++ v :: rest) ≤ syncTopVal e (pre ++ rest) := by
  obtain ⟨_, _, _, hR, _, hbv, _⟩ := listOk_split h
  cases pre with
  | cons p t => simp [syncTopVal]
  | nil =>
    cases rest with
    | nil =>
      simpa [syncTopVal] using le_trans (addr_le_vadEnd v) hbv
    | cons w t =>
      simp only [List.nil_append, syncTopVal]
      exact le_trans (addr_le_vadEnd v) (le_of_lt (hR w rfl))

set_option maxHeartbeats 2000000 in
/-- A successful `oe_mman_unmap` preserves the invariant. -/
theorem unmap_inv (m : oe_mman) (a len : ℕ) (m' : oe_mman) (t : List MEvent)
    (hInv : StrongInv m) (h : oe_mman_unmap m a len = (.OE_OK, m', t)) :
    StrongInv m' := by
  obtain ⟨hmg, hin, hs, h0, hsb, hbm, hme, hlo, htop⟩ := hInv
  have htopE : m.map = syncTopVal m.end_ m.vad_list := htop
  simp only [oe_mman_unmap] at h
  simp only [mmanIsSane, hs, Bool.false_eq_true, if_false] at h
  by_cases c1 : a = 0 ∨ len = 0 ∨ m.magic ≠ OE_HEAP_MAGIC
  · rw [if_pos c1] at h
    exact oe_result.noConfusion (congrArg (fun x => x.1) h)
  rw [if_neg c1] at h
  push_neg at c1
  obtain ⟨ha0, hlen0, -⟩ := c1
  have hlenpos : 0 < len := Nat.pos_of_ne_zero hlen0
  by_cases c2 : a % PAGE_SIZE ≠ 0
  · rw [if_pos c2] at h
    exact oe_result.noConfusion (congrArg (fun x => x.1) h)
  rw [if_neg c2] at h
  by_cases c3 : len % PAGE_SIZE ≠ 0
  · rw [if_pos c3] at h
    exact oe_result.noConfusion (congrArg (fun x => x.1) h)
  rw [if_neg c3] at h
  cases hfind : listFindSplit a m.vad_list with
  | none =>
    rw [hfind] at h
    exact oe_result.noConfusion (congrArg (fun x => x.1) h)
  | some pvr =>
    obtain ⟨pre, vad, rest⟩ := pvr
    rw [hfind] at h
    dsimp only at h
    obtain ⟨hshape, hva, hain⟩ := listFindSplit_some _ _ _ hfind
    simp only at hshape hva hain
    rw [hshape] at hlo htopE
    obtain ⟨hcpre, hccons, hL, hR, hbpre, hbv, hbrest⟩ := listOk_split hlo
    by_cases c4 : a + len > vadEnd vad
    · rw [if_pos c4] at h
      exact oe_result.noConfusion (congrArg (fun x => x.1) h)
    rw [if_neg c4] at h
    push_neg at c4
    by_cases cc1 : vad.addr = a ∧ vadEnd vad = a + len
    · -- Case1: full release
      rw [if_pos cc1] at h
      dsimp only at h
      simp only [Bool.false_eq_true, if_false] at h
      obtain rfl : _ = m' := congrArg (fun x => x.2.1) h
      have hlo2 : listOk m.end_ (pre ++ rest) := listOk_remove hlo
      refine ⟨hmg, hin, rfl, h0, hsb, ?_, ?_, hlo2, rfl⟩
      · exact le_trans hbm (htopE ▸ syncTopVal_remove_le hlo)
      · exact syncTopVal_le_end hlo2.2
    rw [if_neg cc1] at h
    by_cases cc2 : vad.addr = a
    · -- Case2: prefix release
      rw [if_pos cc2] at h
      dsimp only at h
      simp only [Bool.false_eq_true, if_false] at h
      obtain rfl : _ = m' := congrArg (fun x => x.2.1) h
      have hlsz : len ≤ vad.size := by
        simp only [vadEnd] at c4
        omega
      have hend2 : vadEnd {vad with addr := vad.addr + len, size := (vad.size - len) % U32}
          ≤ vadEnd vad := by
        have m1 : (vad.size - len) % U32 ≤ vad.size - len := Nat.mod_le _ _
        simp only [vadEnd]
        omega
      have hlo2 : listOk m.end_
          (pre ++ {vad with addr := vad.addr + len, size := (vad.size - len) % U32} :: rest) := by
        refine listOk_replace hlo ?_ ?_ (le_trans hend2 hbv)
        · intro x hx
          exact gapRel_of_le (hL x hx) (Nat.le_add_right _ _)
        · intro w hw
          exact lt_of_le_of_lt hend2 (hR w hw)
      refine ⟨hmg, hin, rfl, h0, hsb, ?_, ?_, hlo2, rfl⟩
      · refine le_trans hbm ?_
        rw [htopE]
        exact syncTopVal_mono _ _ _ _ _ _ (Nat.le_add_right _ _)
      · exact syncTopVal_le_end hlo2.2
    rw [if_neg cc2] at h
    by_cases cc3 : vadEnd vad = a + len
    · -- Case3: suffix release
      rw [if_pos cc3] at h
      dsimp only at h
      simp only [Bool.false_eq_true, if_false] at h
      obtain rfl : _ = m' := congrArg (fun x => x.2.1) h
      have hend2 : vadEnd {vad with size := (vad.size - len) % U32} ≤ vadEnd vad := by
        have m1 : (vad.size - len) % U32 ≤ vad.size - len := Nat.mod_le _ _
        simp only [vadEnd]
        omega
      have hlo2 : listOk m.end_
          (pre ++ {vad with size := (vad.size - len) % U32} :: rest) := by
        refine listOk_replace_same_addr hlo (le_refl _) ?_ (le_trans hend2 hbv)
        intro w hw
        exact lt_of_le_of_lt hend2 (hR w hw)
      refine ⟨hmg, hin, rfl, h0, hsb, hbm, hme, hlo2, ?_⟩
      dsimp only [topOk]
      rw [htopE]
      refine Eq.symm (syncTopVal_congr ?_)
      rfl
    rw [if_neg cc3] at h
    -- Case4: middle release
    by_cases cav : m.avail = 0
    · rw [if_pos cav] at h
      dsimp only at h
      exact oe_result.noConfusion (congrArg (fun x => x.1) h)
    rw [if_neg cav] at h
    dsimp only at h
    simp only [Bool.false_eq_true, if_false] at h
    obtain rfl : _ = m' := congrArg (fun x => x.2.1) h
    have hvalt : vad.addr < a := lt_of_le_of_ne hva (fun hx => cc2 hx)
    have hrlt : a + len < vadEnd vad := lt_of_le_of_ne c4 (fun hx => cc3 hx.symm)
    have hendL : vadEnd {vad with size := (a - vad.addr) % U32} ≤ a := by
      have m1 : (a - vad.addr) % U32 ≤ a - vad.addr := Nat.mod_le _ _
      simp only [vadEnd]
      omega
    have hendR : vadEnd ⟨a + len, (vadEnd vad - (a + len)) % U32, vad.prot, vad.flags⟩
        ≤ vadEnd vad := by
      have m1 : (vadEnd vad - (a + len)) % U32 ≤ vadEnd vad - (a + len) := Nat.mod_le _ _
      show a + len + (vadEnd vad - (a + len)) % U32 ≤ vadEnd vad
      omega
    have hlo2 : listOk m.end_
        (pre ++ {vad with size := (a - vad.addr) % U32} ::
          (⟨a + len, (vadEnd vad - (a + len)) % U32, vad.prot, vad.flags⟩ : oe_vad) :: rest) := by
      refine listOk_replace2 hlo ?_ ?_ ?_ (le_trans hendL (le_trans (le_of_lt hain) hbv)) ?_
      · intro x hx
        exact gapRel_of_le (hL x hx) (le_refl _)
      · exact lt_of_le_of_lt hendL (show a < a + len by omega)
      · intro w hw
        exact lt_of_le_of_lt hendR (hR w hw)
      · exact le_trans hendR hbv
    refine ⟨hmg, hin, rfl, h0, hsb, ?_, ?_, hlo2, rfl⟩
    · refine le_trans hbm ?_
      rw [htopE]
      exact syncTopVal_mono _ _ _ _ _ _ (le_refl _)
    · exact syncTopVal_le_end hlo2.2

end MmanModel

namespace MmanModel

set_option maxHeartbeats 4000000 in
/-- A successful `oe_mman_remap` preserves the invariant. -/
theorem remap_inv (m : oe_mman) (a os ns fl : ℕ) (p : ℕ) (m' : oe_mman)
    (hInv : StrongInv m) (h : oe_mman_remap m a os ns fl = (some p, m'))
    (hrc : remapCompletes m a os ns) :
    StrongInv m' := by
  obtain ⟨hmg, hin, hs, h0, hsb, hbm, hme, hlo, htop⟩ := hInv
  have htopE : m.map = syncTopVal m.end_ m.vad_list := htop
  have hlo0 := hlo
  have hIC : StrongInv ({m with sanity := false, err := ""} : oe_mman) :=
    ⟨hmg, hin, rfl, h0, hsb, hbm, hme, hlo, htop⟩
  simp only [oe_mman_remap] at h
  simp only [mmanIsSane, hs, Bool.false_eq_true, if_false] at h
  by_cases c1 : m.magic ≠ OE_HEAP_MAGIC ∨ a = 0
  · rw [if_pos c1] at h; exact Option.noConfusion (congrArg Prod.fst h)
  rw [if_neg c1] at h
  by_cases c2 : a % PAGE_SIZE ≠ 0
  · rw [if_pos c2] at h; exact Option.noConfusion (congrArg Prod.fst h)
  rw [if_neg c2] at h
  by_cases c3 : os = 0
  · rw [if_pos c3] at h; exact Option.noConfusion (congrArg Prod.fst h)
  rw [if_neg c3] at h
  by_cases c4 : ns = 0
  · rw [if_pos c4] at h; exact Option.noConfusion (congrArg Prod.fst h)
  rw [if_neg c4] at h
  by_cases c5 : fl ≠ OE_MREMAP_MAYMOVE
  · rw [if_pos c5] at h; exact Option.noConfusion (congrArg Prod.fst h)
  rw [if_neg c5] at h
  set os2 : ℕ := roundUpMult os PAGE_SIZE with hos2
  set ns2 : ℕ := roundUpMult ns PAGE_SIZE with hns2
  cases hfind : listFindSplit a m.vad_list with
  | none =>
    rw [hfind] at h
    exact Option.noConfusion (congrArg Prod.fst h)
  | some pvr =>
    obtain ⟨pre, vad, rest⟩ := pvr
    rw [hfind] at h
    dsimp only at h
    obtain ⟨hshape, hva, hain⟩ := listFindSplit_some _ _ _ hfind
    simp only at hshape hva hain
    rw [hshape] at hlo htopE
    obtain ⟨hcpre, hccons, hL, hR, hbpre, hbv, hbrest⟩ := listOk_split hlo
    by_cases c6 : a + os2 > vadEnd vad
    · rw [if_pos c6] at h
      exact Option.noConfusion (congrArg Prod.fst h)
    rw [if_neg c6] at h
    push_neg at c6
    by_cases cs : ns2 < os2
    · -- shrinking
      rw [if_pos cs] at h
      by_cases cx : vadEnd vad ≠ a + os2
      · rw [if_pos cx] at h
        by_cases cav : m.avail = 0
        · rw [if_pos cav] at h
          exact Option.noConfusion (congrArg Prod.fst h)
        rw [if_neg cav] at h
        dsimp only at h
        simp only [Bool.false_eq_true, if_false] at h
        simp only [Prod.mk.injEq, Option.some.injEq] at h
        obtain ⟨rfl, rfl⟩ := h
        have hxlt : a + os2 < vadEnd vad := lt_of_le_of_ne c6 (fun hx => cx hx.symm)
        have hendL : vadEnd {vad with size := (a + ns2 - vad.addr) % U32} ≤ a + ns2 := by
          have m1 : (a + ns2 - vad.addr) % U32 ≤ a + ns2 - vad.addr := Nat.mod_le _ _
          show vad.addr + (a + ns2 - vad.addr) % U32 ≤ a + ns2
          have : vad.addr ≤ a + ns2 := le_trans hva (Nat.le_add_right _ _)
          omega
        have hendR : vadEnd ⟨a + os2, (vadEnd vad - (a + os2)) % U32, vad.prot, vad.flags⟩
            ≤ vadEnd vad := by
          have m1 : (vadEnd vad - (a + os2)) % U32 ≤ vadEnd vad - (a + os2) := Nat.mod_le _ _
          show a + os2 + (vadEnd vad - (a + os2)) % U32 ≤ vadEnd vad
          omega
        have hlo2 : listOk m.end_
            (pre ++ {vad with size := (a + ns2 - vad.addr) % U32} ::
              (⟨a + os2, (vadEnd vad - (a + os2)) % U32, vad.prot, vad.flags⟩ : oe_vad) :: rest) := by
          refine listOk_replace2 hlo ?_ ?_ ?_ ?_ ?_
          · intro x hx
            exact gapRel_of_le (hL x hx) (le_refl _)
          · exact lt_of_le_of_lt hendL (show a + ns2 < a + os2 by omega)
          · intro w hw
            exact lt_of_le_of_lt hendR (hR w hw)
          · exact le_trans hendL (le_trans (le_of_lt (show a + ns2 < vadEnd vad by omega)) hbv)
          · exact le_trans hendR hbv
        refine ⟨hmg, hin, rfl, h0, hsb, ?_, ?_, hlo2, rfl⟩
        · refine le_trans hbm ?_
          rw [htopE]
          exact syncTopVal_mono _ _ _ _ _ _ (le_refl _)
        · exact syncTopVal_le_end hlo2.2
      · rw [if_neg cx] at h
        rw [not_not] at cx
        dsimp only at h
        simp only [Bool.false_eq_true, if_false] at h
        simp only [Prod.mk.injEq, Option.some.injEq] at h
        obtain ⟨rfl, rfl⟩ := h
        have hendL : vadEnd {vad with size := (a + ns2 - vad.addr) % U32} < vadEnd vad := by
          have m1 : (a + ns2 - vad.addr) % U32 ≤ a + ns2 - vad.addr := Nat.mod_le _ _
          show vad.addr + (a + ns2 - vad.addr) % U32 < vadEnd vad
          have h1 : vad.addr ≤ a + ns2 := le_trans hva (Nat.le_add_right _ _)
          have h2 : a + ns2 < a + os2 := by omega
          omega
        have hlo2 : listOk m.end_
            (pre ++ {vad with size := (a + ns2 - vad.addr) % U32} :: rest) := by
          refine listOk_replace_same_addr hlo (le_refl _) ?_ ?_
          · intro w hw
            exact lt_of_lt_of_le (lt_of_lt_of_le hendL (le_of_lt (hR w hw))) (le_refl _)
          · exact le_trans (le_of_lt hendL) hbv
        refine ⟨hmg, hin, rfl, h0, hsb, hbm, hme, hlo2, ?_⟩
        dsimp only [topOk]
        rw [htopE]
        refine Eq.symm (syncTopVal_congr ?_)
        rfl
    · rw [if_neg cs] at h
      by_cases cg : os2 < ns2
      · -- growing
        rw [if_pos cg] at h
        by_cases cip : vadEnd vad = a + os2 ∧ ns2 - os2 ≤ getRightGap m.end_ vad rest
        · -- grow in place
          rw [if_pos cip] at h
          obtain ⟨hexact, hgap⟩ := cip
          cases rest with
          | cons next rest2 =>
            dsimp only at h
            simp only [getRightGap] at hgap
            have hnlt : vadEnd vad < next.addr := hR next rfl
            have hgap2 : vadEnd vad + (ns2 - os2) ≤ next.addr := by omega
            by_cases cco : vadEnd {vad with size := (vad.size + (ns2 - os2)) % U32} = next.addr
            · rw [if_pos cco] at h
              simp only [Bool.false_eq_true, if_false] at h
              simp only [Prod.mk.injEq, Option.some.injEq] at h
              obtain ⟨rfl, rfl⟩ := h
              have hend3 : vadEnd {vad with size :=
                  ((vad.size + (ns2 - os2)) % U32 + next.size) % U32} ≤ vadEnd next := by
                have m2 : ((vad.size + (ns2 - os2)) % U32 + next.size) % U32
                    ≤ (vad.size + (ns2 - os2)) % U32 + next.size := Nat.mod_le _ _
                show vad.addr + ((vad.size + (ns2 - os2)) % U32 + next.size) % U32
                    ≤ next.addr + next.size
                show vad.addr + ((vad.size + (ns2 - os2)) % U32 + next.size) % U32
                    ≤ next.addr + next.size
                have hcc : vad.addr + (vad.size + (ns2 - os2)) % U32 = next.addr := cco
                omega
              have hlo2 : listOk m.end_ (pre ++ {vad with size :=
                  ((vad.size + (ns2 - os2)) % U32 + next.size) % U32} :: rest2) := by
                refine listOk_replace_drop hlo ?_ hend3
                intro x hx
                exact gapRel_of_le (hL x hx) (le_refl _)
              refine ⟨hmg, hin, rfl, h0, hsb, ?_, ?_, hlo2, rfl⟩
              · refine le_trans hbm ?_
                rw [htopE]
                exact syncTopVal_mono _ _ _ _ _ _ (le_refl _)
              · exact syncTopVal_le_end hlo2.2
            · rw [if_neg cco] at h
              simp only [Bool.false_eq_true, if_false] at h
              simp only [Prod.mk.injEq, Option.some.injEq] at h
              obtain ⟨rfl, rfl⟩ := h
              have hend2 : vadEnd {vad with size := (vad.size + (ns2 - os2)) % U32}
                  < next.addr := by
                have m1 : (vad.size + (ns2 - os2)) % U32 ≤ vad.size + (ns2 - os2) :=
                  Nat.mod_le _ _
                have hne : vad.addr + (vad.size + (ns2 - os2)) % U32 ≠ next.addr := cco
                show vad.addr + (vad.size + (ns2 - os2)) % U32 < next.addr
                simp only [vadEnd] at hgap2
                omega
              have hlo2 : listOk m.end_
                  (pre ++ {vad with size := (vad.size + (ns2 - os2)) % U32} :: next :: rest2) := by
                refine listOk_replace_same_addr hlo (le_refl _) ?_ ?_
                · intro w hw
                  obtain rfl : next = w := by simpa using hw
                  exact hend2
                · exact le_trans (le_of_lt hend2)
                    (le_trans (addr_le_vadEnd next) (hbrest next (List.mem_cons_self _ _)))
              refine ⟨hmg, hin, rfl, h0, hsb, hbm, hme, hlo2, ?_⟩
              dsimp only [topOk]
              rw [htopE]
              refine Eq.symm (syncTopVal_congr ?_)
              rfl
          | nil =>
            dsimp only at h
            simp only [getRightGap] at hgap
            simp only [Bool.false_eq_true, if_false] at h
            simp only [Prod.mk.injEq, Option.some.injEq] at h
            obtain ⟨rfl, rfl⟩ := h
            have hend2 : vadEnd {vad with size := (vad.size + (ns2 - os2)) % U32} ≤ m.end_ := by
              have m1 : (vad.size + (ns2 - os2)) % U32 ≤ vad.size + (ns2 - os2) := Nat.mod_le _ _
              show vad.addr + (vad.size + (ns2 - os2)) % U32 ≤ m.end_
              simp only [vadEnd] at hgap hbv
              omega
            have hlo2 : listOk m.end_
                (pre ++ [{vad with size := (vad.size + (ns2 - os2)) % U32}]) := by
              refine listOk_replace_same_addr hlo (le_refl _) ?_ hend2
              intro w hw
              simp at hw
            refine ⟨hmg, hin, rfl, h0, hsb, hbm, hme, hlo2, ?_⟩
            dsimp only [topOk]
            rw [htopE]
            refine Eq.symm (syncTopVal_congr ?_)
            rfl
        · -- grow by move
          rw [if_neg cip] at h
          rcases hmap : oe_mman_map {m with sanity := false, err := ""} 0 ns2
              vad.prot vad.flags with ⟨r1, m1⟩
          rw [hmap] at h
          cases r1 with
          | none =>
            dsimp only at h
            exact Option.noConfusion (congrArg Prod.fst h)
          | some a1 =>
            dsimp only at h
            have hmc : mapCompletes m ns2 := hrc pre vad rest hfind cg cip
            have hI1 : StrongInv m1 := map_inv _ _ _ _ _ _ _ hIC hmap hmc
            rcases hun : oe_mman_unmap m1 a os2 with ⟨r2, m2, t2⟩
            rw [hun] at h
            cases r2 with
            | OE_OK =>
              dsimp only at h
              have hI2 : StrongInv m2 := unmap_inv _ _ _ _ _ hI1 hun
              obtain ⟨-, -, hs2, -⟩ := hI2
              simp only [hs2, Bool.false_eq_true, if_false] at h
              simp only [Prod.mk.injEq, Option.some.injEq] at h
              obtain ⟨rfl, rfl⟩ := h
              exact unmap_inv _ _ _ _ _ hI1 hun
            | OE_FAILURE =>
              dsimp only at h
              exact Option.noConfusion (congrArg Prod.fst h)
            | OE_INVALID_PARAMETER =>
              dsimp only at h
              exact Option.noConfusion (congrArg Prod.fst h)
            | OE_OUT_OF_MEMORY =>
              dsimp only at h
              exact Option.noConfusion (congrArg Prod.fst h)
            | OE_UNEXPECTED =>
              dsimp only at h
              exact Option.noConfusion (congrArg Prod.fst h)
      · -- sizes equal
        rw [if_neg cg] at h
        dsimp only at h
        simp only [Bool.false_eq_true, if_false] at h
        simp only [Prod.mk.injEq, Option.some.injEq] at h
        obtain ⟨rfl, rfl⟩ := h
        exact hIC

end MmanModel

namespace MmanModel

/-- Every reachable state satisfies the inductive invariant. -/
theorem reach_inv (m : oe_mman) (h : Reach m) : StrongInv m := by
  induction h with
  | init b s m h => exact init_inv b s m h
  | brkOp m a m' _ h ih => exact brk_inv m a m' ih h
  | sbrkOp m i p m' _ h ih => exact sbrk_inv m i p m' ih h
  | mapOp m a l pr fl p m' _ h hc ih => exact map_inv m a l pr fl p m' ih h hc
  | unmapOp m a l m' t _ h ih => exact unmap_inv m a l m' t ih h
  | remapOp m a os ns fl p m' _ h hrc ih => exact remap_inv m a os ns fl p m' ih h hrc

/-- C1, claim theorem. -/
theorem c1_reachable_ordered_gapped_top (m : oe_mman) (h : Reach m) :
    List.Pairwise (fun p q : oe_vad => p.addr < q.addr) m.vad_list ∧
    List.Chain' (fun p q : oe_vad => p.addr + p.size < q.addr) m.vad_list ∧
    (m.vad_list ≠ [] → ∃ v t, m.vad_list = v :: t ∧ m.map = v.addr) ∧
    (m.vad_list = [] → m.map = m.end_) := by
  obtain ⟨-, -, -, -, -, -, -, hlo, htop⟩ := reach_inv m h
  have hpw : List.Pairwise gapRel m.vad_list := listOk_pairwise hlo
  refine ⟨?_, hlo.1, ?_, ?_⟩
  · exact hpw.imp (fun hxy => lt_of_le_of_lt (addr_le_vadEnd _) hxy)
  · intro hne
    cases hvl : m.vad_list with
    | nil => exact absurd hvl hne
    | cons v t =>
      refine ⟨v, t, rfl, ?_⟩
      have := htop
      rw [topOk, hvl] at this
      simpa [syncTopVal] using this
  · intro hvl
    have := htop
    rw [topOk, hvl] at this
    simpa [syncTopVal] using this

end MmanModel

namespace MmanModel

/-- Witness trace, step 0: a 40-page heap at base 4096. -/
def w0 : oe_mman := (oe_mman_init 4096 163840).getD default

/-- Witness trace, step 1: map 3 pages (lands at 155648). -/
def w1 : oe_mman := (oe_mman_map w0 0 12288 3 34).2

/-- Witness trace, step 2: unmap the middle page of the mapping. -/
def w2 : oe_mman := (oe_mman_unmap w1 159744 4096).2.1

theorem w2_reach : Reach w2 :=
  Reach.unmapOp w1 159744 4096 w2 (oe_mman_unmap w1 159744 4096).2.2
    (Reach.mapOp w0 0 12288 3 34 155648 w1
      (Reach.init 4096 163840 w0 (by decide))
      (by decide) (by decide))
    (by decide)

/-- C1 witness: the invariants evaluated on the concrete reachable state
`w2`. -/
theorem c1_witness :
    List.Pairwise (fun p q : oe_vad => p.addr < q.addr) w2.vad_list ∧
    List.Chain' (fun p q : oe_vad => p.addr + p.size < q.addr) w2.vad_list ∧
    (w2.vad_list ≠ [] → ∃ v t, w2.vad_list = v :: t ∧ w2.map = v.addr) ∧
    (w2.vad_list = [] → w2.map = w2.end_) :=
  c1_reachable_ordered_gapped_top w2 w2_reach

/-- The total byte count of the live regions (their recorded sizes). -/
def sumSizes (l : List oe_vad) : Nat := (l.map oe_vad.size).sum

/-- The total size of the gaps: between adjacent regions, and between the
last region and `e`. -/
def sumGaps (e : Nat) : List oe_vad → Nat
  | [] => 0
  | [v] => e - vadEnd v
  | v :: w :: r => (w.addr - vadEnd v) + sumGaps e (w :: r)

theorem sumSizes_gaps_telescope (e : ℕ) :
    ∀ (t : List oe_vad) (v : oe_vad), listOk e (v :: t) →
      sumSizes (v :: t) + sumGaps e (v :: t) = e - v.addr := by
  intro t
  induction t with
  | nil =>
    intro v hlo
    have hb : vadEnd v ≤ e := hlo.2 v (List.mem_cons_self _ _)
    simp only [sumSizes, sumGaps, List.map_cons, List.map_nil, List.sum_cons, List.sum_nil,
      vadEnd] at hb ⊢
    omega
  | cons w r ih =>
    intro v hlo
    have hlo' : listOk e (w :: r) :=
      ⟨(List.chain'_cons'.mp hlo.1).2, fun x hx => hlo.2 x (List.mem_cons_of_mem _ hx)⟩
    have hrec := ih w hlo'
    have hvw : vadEnd v < w.addr := (List.chain'_cons.mp hlo.1).1
    have hwb : w.addr ≤ e :=
      le_trans (addr_le_vadEnd w) (hlo.2 w (List.mem_cons_of_mem _ (List.mem_cons_self _ _)))
    simp only [sumSizes, sumGaps, List.map_cons, List.sum_cons] at hrec ⊢
    simp only [vadEnd] at hvw ⊢
    omega

/-- C7 counterexample: a reachable state with `brk` unmoved where the sum of
the region sizes plus the headroom `map - brk` differs from `end - start`
(the unmap left an interior gap that the claim does not account for). -/
theorem c7_counterexample :
    w2.brk = w2.start ∧ Reach w2 ∧
    sumSizes w2.vad_list + (w2.map - w2.brk) ≠ w2.end_ - w2.start :=
  ⟨by decide, w2_reach, by decide⟩

/-- C7, amended claim theorem: with `brk` unmoved, the sum of live-region
sizes plus the free headroom `map - brk` plus the total gap size (between
adjacent regions and from the last region to `end`) equals `end - start`. -/
theorem c7_conservation_with_gaps (m : oe_mman) (h : Reach m)
    (hbrk : m.brk = m.start) :
    sumSizes m.vad_list + (m.map - m.brk) + sumGaps m.end_ m.vad_list =
      m.end_ - m.start := by
  obtain ⟨-, -, -, -, hsb, hbm, hme, hlo, htop⟩ := reach_inv m h
  have htopE : m.map = syncTopVal m.end_ m.vad_list := htop
  cases hvl : m.vad_list with
  | nil =>
    rw [hvl] at htopE
    simp only [syncTopVal] at htopE
    simp only [sumSizes, sumGaps, List.map, List.sum_nil]
    rw [← hbrk, htopE]
    omega
  | cons v t =>
    rw [hvl] at hlo htopE
    simp only [syncTopVal] at htopE
    have htel := sumSizes_gaps_telescope m.end_ t v hlo
    have hvb : v.addr ≤ m.end_ :=
      le_trans (addr_le_vadEnd v) (hlo.2 v (List.mem_cons_self _ _))
    have hbv : m.brk ≤ v.addr := htopE ▸ hbm
    rw [← hbrk]
    omega

/-- C7 witness: the amended identity evaluated on the counterexample state. -/
theorem c7_witness :
    sumSizes w2.vad_list + (w2.map - w2.brk) + sumGaps w2.end_ w2.vad_list =
      w2.end_ - w2.start :=
  c7_conservation_with_gaps w2 w2_reach (by decide)

end MmanModel

namespace MmanModel

/-! ## C2: characterization of `oe_mman_is_sane` -/

theorem sortedCheck_fst_iff (l : List oe_vad) :
    (sortedCheck l).1 = true ↔
      List.Chain' (fun p q : oe_vad => p.addr < q.addr ∧ vadEnd p < q.addr) l := by
  induction l with
  | nil => simp [sortedCheck]
  | cons p t ih =>
    cases t with
    | nil => simp [sortedCheck]
    | cons q r =>
      rw [sortedCheck]
      rw [List.chain'_cons]
      by_cases h1 : p.addr < q.addr
      · rw [if_neg (by simpa using h1)]
        by_cases h2 : vadEnd p = q.addr
        · rw [if_pos h2]
          simp [h2]
        · rw [if_neg h2]
          by_cases h3 : vadEnd p ≤ q.addr
          · rw [if_neg (by simpa using h3)]
            rw [ih]
            have : vadEnd p < q.addr := lt_of_le_of_ne h3 h2
            simp [h1, this]
          · rw [if_pos (by simpa using h3)]
            simp only [Bool.false_eq_true, false_iff]
            intro hcon
            exact h3 (le_of_lt hcon.1.2)
      · rw [if_pos (by simpa using h1)]
        simp only [Bool.false_eq_true, false_iff]
        intro hcon
        exact h1 hcon.1.1

/-- C2, counterexample: a state with `brk` strictly above `map` (and a
misaligned `brk`) that the sanity predicate nevertheless accepts. -/
theorem c2_counterexample :
    oe_mman_is_sane
      { base := 4096, size := 163840, start := 8192, brk := 171009, map := 167936,
        end_ := 167936, vad_list := [], avail := 128, scrub := false, sanity := false,
        magic := OE_HEAP_MAGIC, inited := true, err := "" } = true ∧
    (167936 : ℕ) < 171009 ∧ (171009 : ℕ) % PAGE_SIZE ≠ 0 := by
  refine ⟨by decide, by decide, by decide⟩

/-- C2, amended claim theorem: `oe_mman_is_sane` returns true iff exactly
these checks pass: magic, initialized, `start < end`, `size = end - base`,
`start ≤ brk`, `map ≤ end`, frontier coherence (`map` equals the head
address, or `end` for an empty list), and the list walk (strictly
increasing addresses, no touching neighbours).  It does not check
`brk ≤ map`, `base ≤ start`, or any page alignment. -/
theorem c2_is_sane_characterization (m : oe_mman) :
    oe_mman_is_sane m = true ↔
      (m.magic = OE_HEAP_MAGIC ∧ m.inited = true ∧ m.start < m.end_ ∧
       m.size = m.end_ - m.base ∧ m.start ≤ m.brk ∧ m.map ≤ m.end_ ∧
       m.map = syncTopVal m.end_ m.vad_list ∧
       List.Chain' (fun p q : oe_vad => p.addr < q.addr ∧ vadEnd p < q.addr) m.vad_list) := by
  rw [oe_mman_is_sane, isSaneChecks]
  by_cases h1 : m.magic ≠ OE_HEAP_MAGIC
  · rw [if_pos h1]
    simp only [Bool.false_eq_true, false_iff]
    intro hc
    exact h1 hc.1
  rw [if_neg h1]
  rw [not_not] at h1
  by_cases h2 : m.inited = false
  · rw [if_pos h2]
    simp [h2]
  rw [if_neg h2]
  have h2' : m.inited = true := by
    cases hx : m.inited
    · exact absurd hx h2
    · rfl
  by_cases h3 : m.start < m.end_
  · rw [if_neg (by simpa using h3)]
    by_cases h4 : m.size ≠ m.end_ - m.base
    · rw [if_pos h4]
      simp only [Bool.false_eq_true, false_iff]
      intro hc
      exact h4 hc.2.2.2.1
    rw [if_neg h4]
    rw [not_not] at h4
    by_cases h5 : m.start ≤ m.brk
    · rw [if_neg (by simpa using h5)]
      by_cases h6 : m.map ≤ m.end_
      · rw [if_neg (by simpa using h6)]
        cases hvl : m.vad_list with
        | nil =>
          dsimp only
          by_cases h7 : m.map ≠ m.end_
          · rw [if_pos h7]
            simp only [Bool.false_eq_true, false_iff]
            intro hc
            exact h7 (by simpa [syncTopVal] using hc.2.2.2.2.2.2.1)
          · rw [if_neg h7]
            rw [not_not] at h7
            rw [sortedCheck_fst_iff]
            simp [h1, h2', h3, h4, h5, h6, h7, syncTopVal]
        | cons v t =>
          dsimp only
          by_cases h7 : m.map ≠ v.addr
          · rw [if_pos h7]
            simp only [Bool.false_eq_true, false_iff]
            intro hc
            exact h7 (by simpa [syncTopVal] using hc.2.2.2.2.2.2.1)
          · rw [if_neg h7]
            rw [not_not] at h7
            rw [sortedCheck_fst_iff]
            simp [h1, h2', h3, h4, h5, h6, h7, syncTopVal]
            intro _
            rw [← h7]
            exact h6
      · rw [if_pos (by simpa using h6)]
        simp only [Bool.false_eq_true, false_iff]
        intro hc
        exact h6 hc.2.2.2.2.2.1
    · rw [if_pos (by simpa using h5)]
      simp only [Bool.false_eq_true, false_iff]
      intro hc
      exact h5 hc.2.2.2.2.1
  · rw [if_pos (by simpa using h3)]
    simp only [Bool.false_eq_true, false_iff]
    intro hc
    exact h3 hc.2.2.1

/-! ## C4: negative `sbrk` increments fail -/

/-- The state after growing the break by two pages from the witness heap. -/
def c4state : oe_mman := (oe_mman_sbrk w0 8192).2

/-- C4: the code bug.  From a reachable state whose break sits two pages
above `start` (so a one-page shrink is well in range), `sbrk(-4096)`
returns NULL with "out of memory" and leaves `brk` unchanged: the cast
`(uintptr_t)increment` turns the negative increment into a huge unsigned
value that can never pass `<= map - brk`. -/
theorem c4_sbrk_negative_fails :
    Reach c4state ∧
    c4state.start + 4096 ≤ c4state.brk ∧
    (oe_mman_sbrk c4state (-4096)).1 = none ∧
    (oe_mman_sbrk c4state (-4096)).2.err = "out of memory" ∧
    (oe_mman_sbrk c4state (-4096)).2.brk = c4state.brk :=
  ⟨Reach.sbrkOp w0 8192 8192 c4state
     (Reach.init 4096 163840 w0 (by decide)) (by decide),
   by decide, by decide, by decide, by decide⟩

end MmanModel

namespace MmanModel

/-! ## C8: no-op remap is the identity -/

/-- C8, claim theorem: remapping a live range to its own size succeeds,
returns the original address, and leaves the manager state unchanged (only
the error string is cleared, as on every call). -/
theorem c8_remap_noop_identity (m : oe_mman) (a n : ℕ)
    (pre rest : List oe_vad) (vad : oe_vad)
    (hmg : m.magic = OE_HEAP_MAGIC) (hs : m.sanity = false)
    (ha0 : a ≠ 0) (hal : a % PAGE_SIZE = 0) (hn : n ≠ 0)
    (hfind : listFindSplit a m.vad_list = some (pre, vad, rest))
    (hcontain : a + roundUpMult n PAGE_SIZE ≤ vadEnd vad) :
    oe_mman_remap m a n n OE_MREMAP_MAYMOVE = (some a, {m with err := ""}) := by
  simp only [oe_mman_remap, mmanIsSane, hs, Bool.false_eq_true, if_false]
  rw [if_neg (by simp [hmg, ha0])]
  rw [if_neg (by simp [hal])]
  rw [if_neg hn]
  rw [if_neg hn]
  rw [if_neg (by simp)]
  rw [hfind]
  dsimp only
  rw [if_neg (Nat.not_lt.mpr hcontain)]
  rw [if_neg (lt_irrefl _)]
  rw [if_neg (lt_irrefl _)]
  dsimp only
  simp [hs]

/-- C8 witness: the no-op remap of the 3-page mapping in the witness trace. -/
theorem c8_witness :
    oe_mman_remap w1 155648 12288 12288 OE_MREMAP_MAYMOVE =
      (some 155648, {w1 with err := ""}) :=
  c8_remap_noop_identity w1 155648 12288 [] []
    ⟨155648, 12288, 3, 34⟩
    (by decide) (by decide) (by decide) (by decide) (by decide)
    (by decide) (by decide)

end MmanModel

namespace MmanModel

/-! ## C9: 32-bit truncation of recorded sizes -/

set_option maxHeartbeats 1000000 in
/-- C9, claim theorem: a successful `oe_mman_map` that creates a fresh
descriptor (empty region list) records the descriptor size as the rounded
length modulo `2^32`; for lengths of at least `2^32` bytes the recorded
size is strictly smaller than the allocated length, and the request is not
rejected. -/
theorem c9_map_truncates_large_sizes (m : oe_mman) (l pr fl : ℕ)
    (hmg : m.magic = OE_HEAP_MAGIC) (hs : m.sanity = false)
    (hempty : m.vad_list = [])
    (hl0 : l ≠ 0)
    (hr : pr &&& OE_PROT_READ ≠ 0) (hw : pr &&& OE_PROT_WRITE ≠ 0)
    (hx : pr &&& OE_PROT_EXEC = 0)
    (han : fl &&& OE_MAP_ANONYMOUS ≠ 0) (hpv : fl &&& OE_MAP_PRIVATE ≠ 0)
    (hsh : fl &&& OE_MAP_SHARED = 0) (hfx : fl &&& OE_MAP_FIXED = 0)
    (hbig : U32 ≤ (l + PAGE_SIZE - 1) / PAGE_SIZE * PAGE_SIZE)
    (hfit : m.brk + (l + PAGE_SIZE - 1) / PAGE_SIZE * PAGE_SIZE ≤ m.map)
    (hbrkpos : 0 < m.brk) (hav : m.avail ≠ 0) :
    (oe_mman_map m 0 l pr fl).1 =
        some (m.map - (l + PAGE_SIZE - 1) / PAGE_SIZE * PAGE_SIZE) ∧
    (oe_mman_map m 0 l pr fl).2.vad_list =
        [⟨m.map - (l + PAGE_SIZE - 1) / PAGE_SIZE * PAGE_SIZE,
          ((l + PAGE_SIZE - 1) / PAGE_SIZE * PAGE_SIZE) % U32, pr % U16, fl % U16⟩] ∧
    ((l + PAGE_SIZE - 1) / PAGE_SIZE * PAGE_SIZE) % U32
        < (l + PAGE_SIZE - 1) / PAGE_SIZE * PAGE_SIZE := by
  set L : ℕ := (l + PAGE_SIZE - 1) / PAGE_SIZE * PAGE_SIZE with hLdef
  have hfga : findGapAddr {m with sanity := false, err := ""} L = (m.map - L, none) := by
    unfold findGapAddr
    rw [show ({m with sanity := false, err := ""} : oe_mman).vad_list = m.vad_list from rfl,
        hempty]
    simp only [findGapSplit, sub64]
    rw [if_pos (show L ≤ m.map by omega)]
    rw [if_neg (not_not_intro (show m.brk ≤ m.map - L by omega))]
  simp only [oe_mman_map, mmanIsSane, hs, Bool.false_eq_true, if_false]
  rw [if_neg (by simp [hmg])]
  rw [if_neg (by simp)]
  rw [if_neg hl0]
  rw [if_neg hr]
  rw [if_neg hw]
  rw [if_neg (by simp [hx])]
  rw [if_neg han]
  rw [if_neg hpv]
  rw [if_neg (by simp [hsh])]
  rw [if_neg (by simp [hfx])]
  rw [if_neg (by simp)]
  rw [hfga]
  dsimp only
  rw [if_neg (show ¬ (m.map - L = 0) by omega)]
  rw [show ({m with sanity := false, err := ""} : oe_mman).vad_list = m.vad_list from rfl,
      hempty]
  dsimp only
  rw [if_neg hav]
  refine ⟨rfl, rfl, ?_⟩
  exact lt_of_lt_of_le (Nat.mod_lt _ (by decide)) hbig

/-- C9 witness state: an 8 GiB heap. -/
def c9state : oe_mman :=
  { base := 4096, size := 8589934592, start := 67112960, brk := 67112960,
    map := 8589938688, end_ := 8589938688, vad_list := [], avail := 2097152,
    scrub := false, sanity := false, magic := OE_HEAP_MAGIC, inited := true, err := "" }

/-- C9 witness: mapping `2^32` bytes in the 8 GiB heap succeeds and records
size `0`. -/
theorem c9_witness :
    (oe_mman_map c9state 0 4294967296 3 34).1 =
        some (c9state.map - (4294967296 + PAGE_SIZE - 1) / PAGE_SIZE * PAGE_SIZE) ∧
    (oe_mman_map c9state 0 4294967296 3 34).2.vad_list =
        [⟨c9state.map - (4294967296 + PAGE_SIZE - 1) / PAGE_SIZE * PAGE_SIZE,
          ((4294967296 + PAGE_SIZE - 1) / PAGE_SIZE * PAGE_SIZE) % U32, 3 % U16, 34 % U16⟩] ∧
    ((4294967296 + PAGE_SIZE - 1) / PAGE_SIZE * PAGE_SIZE) % U32
        < (4294967296 + PAGE_SIZE - 1) / PAGE_SIZE * PAGE_SIZE :=
  c9_map_truncates_large_sizes c9state 4294967296 3 34
    (by decide) (by decide) (by decide) (by decide) (by decide) (by decide)
    (by decide) (by decide) (by decide) (by decide) (by decide) (by decide)
    (by decide) (by decide) (by decide)

end MmanModel

namespace MmanModel

/-! ## C10: diagnosis of map failures on insane states -/

theorem sortedCheck_err_ne (l : List oe_vad) : (sortedCheck l).2 ≠ "out of memory" := by
  induction l with
  | nil => simp [sortedCheck]
  | cons p t ih =>
    cases t with
    | nil => simp [sortedCheck]
    | cons q r =>
      rw [sortedCheck]
      split
      · decide
      split
      · decide
      split
      · decide
      exact ih

/-- None of the diagnostics of `oe_mman_is_sane` is the out-of-memory
message. -/
theorem isSaneChecks_err_ne (m : oe_mman) : (isSaneChecks m).2 ≠ "out of memory" := by
  rw [isSaneChecks]
  split
  · decide
  split
  · decide
  split
  · decide
  split
  · decide
  split
  · decide
  split
  · decide
  split
  · split
    · decide
    · exact sortedCheck_err_ne _
  · split
    · decide
    · exact sortedCheck_err_ne _

/-- C10, amended claim theorem: on a state with sanity checking enabled
that violates an invariant, the gap search does return the failure
sentinel 0, but a `oe_mman_map` call fails at its own entry sanity check,
before the gap search runs: the reported diagnostic is the sanity
predicate's message, never "out of memory". -/
theorem c10_insane_map_diagnostic (m : oe_mman) (S pr fl : ℕ)
    (hsan : m.sanity = true) (hbad : oe_mman_is_sane m = false)
    (hmg : m.magic = OE_HEAP_MAGIC) :
    (mmanFindGap m S).1 = (0, none, none) ∧
    (oe_mman_map m 0 S pr fl).1 = none ∧
    (oe_mman_map m 0 S pr fl).2.err = (isSaneChecks m).2 ∧
    (oe_mman_map m 0 S pr fl).2.err ≠ "out of memory" := by
  have hbad' : (isSaneChecks m).1 = false := hbad
  have hbadE : (isSaneChecks ({m with err := ""} : oe_mman)).1 = false := hbad
  have herr : (isSaneChecks ({m with err := ""} : oe_mman)).2 = (isSaneChecks m).2 := rfl
  refine ⟨?_, ?_⟩
  · rw [mmanFindGap, mmanIsSane, if_pos hsan, hbad']
  · have hmap : oe_mman_map m 0 S pr fl =
        (none, {m with err := (isSaneChecks m).2}) := by
      rw [oe_mman_map]
      rw [if_neg (by simp [hmg])]
      rw [mmanIsSane]
      rw [if_pos (show ({m with err := ""} : oe_mman).sanity = true from hsan)]
      rw [hbadE, herr]
    rw [hmap]
    exact ⟨rfl, rfl, isSaneChecks_err_ne m⟩

/-- C10 counterexample state: frontier coherence violated (`map` is not the
head address), sanity checking enabled. -/
def c10state : oe_mman :=
  { base := 4096, size := 163840, start := 8192, brk := 8192, map := 8192,
    end_ := 167936, vad_list := [⟨159744, 4096, 3, 34⟩], avail := 128,
    scrub := false, sanity := true, magic := OE_HEAP_MAGIC, inited := true, err := "" }

/-- C10 counterexample: on this insane state the failed map call reports
the sanity diagnostic, not "out of memory" as the claim states. -/
theorem c10_counterexample :
    c10state.sanity = true ∧
    oe_mman_is_sane c10state = false ∧
    (oe_mman_map c10state 0 4096 3 34).1 = none ∧
    (oe_mman_map c10state 0 4096 3 34).2.err = "mman->map != mman->vad_list->addr" ∧
    (oe_mman_map c10state 0 4096 3 34).2.err ≠ "out of memory" := by
  refine ⟨by decide, by decide, by decide, by decide, by decide⟩

/-- C10 witness: the amended theorem evaluated on the counterexample
state. -/
theorem c10_witness :
    (mmanFindGap c10state 4096).1 = (0, none, none) ∧
    (oe_mman_map c10state 0 4096 3 34).1 = none ∧
    (oe_mman_map c10state 0 4096 3 34).2.err = (isSaneChecks c10state).2 ∧
    (oe_mman_map c10state 0 4096 3 34).2.err ≠ "out of memory" :=
  c10_insane_map_diagnostic c10state 4096 3 34 (by decide) (by decide) (by decide)

end MmanModel

namespace MmanModel

/-! ## C6: scrub ordering relative to the free-list put -/

/-- Does a 0xDD scrub write occur before every `_free_list_put` in the
event trace?  Returns false iff some `freePut` happens with no scrub
before it. -/
def scrubBeforeFreePut : List MEvent → Bool
  | [] => true
  | MEvent.freePut :: _ => false
  | MEvent.memsetE _ _ 221 :: _ => true
  | _ :: rest => scrubBeforeFreePut rest

/-- C6, claim theorem (amended): a full release with scrubbing enabled
succeeds and performs, in order, the list removal, the top sync, the
free-list put, and only then the 0xDD scrub of the released range — the
scrub is the last internal action, after the descriptor is already back on
the free list (but still before the operation returns). -/
theorem c6_scrub_after_freeput (m : oe_mman) (a len : ℕ)
    (pre rest : List oe_vad) (vad : oe_vad)
    (hmg : m.magic = OE_HEAP_MAGIC) (hs : m.sanity = false)
    (hscrub : m.scrub = true)
    (ha0 : a ≠ 0) (hlen0 : len ≠ 0)
    (hal : a % PAGE_SIZE = 0) (hll : len % PAGE_SIZE = 0)
    (hfind : listFindSplit a m.vad_list = some (pre, vad, rest))
    (haddr : vad.addr = a) (hend : vadEnd vad = a + len) :
    (oe_mman_unmap m a len).1 = .OE_OK ∧
    (oe_mman_unmap m a len).2.2 =
      [MEvent.listRemove, MEvent.syncTop, MEvent.freePut, MEvent.memsetE a len 221] := by
  simp only [oe_mman_unmap, mmanIsSane, hs, Bool.false_eq_true, if_false]
  rw [if_neg (by simp [ha0, hlen0, hmg])]
  rw [if_neg (by simp [hal])]
  rw [if_neg (by simp [hll])]
  rw [hfind]
  dsimp only
  rw [if_neg (by rw [hend]; exact lt_irrefl _)]
  rw [if_pos ⟨haddr, hend⟩]
  dsimp only
  rw [if_pos (show ({m with err := ""} : oe_mman).scrub = true from hscrub)]
  simp only [Bool.false_eq_true, if_false]
  exact ⟨trivial, rfl⟩

/-- C6 counterexample: on the concrete scrub-enabled full release, the
free-list put happens with no scrub before it, refuting the claimed
ordering (scrub before any recycling list mutation). -/
theorem c6_counterexample :
    ({w1 with scrub := true} : oe_mman).scrub = true ∧
    (oe_mman_unmap {w1 with scrub := true} 155648 12288).1 = .OE_OK ∧
    MEvent.freePut ∈ (oe_mman_unmap {w1 with scrub := true} 155648 12288).2.2 ∧
    scrubBeforeFreePut (oe_mman_unmap {w1 with scrub := true} 155648 12288).2.2 = false := by
  refine ⟨by decide, by decide, by decide, by decide⟩

/-- C6 witness: the amended ordering evaluated on the counterexample
state. -/
theorem c6_witness :
    (oe_mman_unmap {w1 with scrub := true} 155648 12288).1 = .OE_OK ∧
    (oe_mman_unmap {w1 with scrub := true} 155648 12288).2.2 =
      [MEvent.listRemove, MEvent.syncTop, MEvent.freePut,
       MEvent.memsetE 155648 12288 221] :=
  c6_scrub_after_freeput {w1 with scrub := true} 155648 12288 []
    [] ⟨155648, 12288, 3, 34⟩
    (by decide) (by decide) (by decide) (by decide) (by decide) (by decide)
    (by decide) (by decide) (by decide) (by decide)

end MmanModel

namespace MmanModel

/-- Executable form of the gap-separation chain, for concrete witnesses. -/
def chainOkB : List oe_vad → Bool
  | [] => true
  | [_] => true
  | v :: w :: r => (decide (vadEnd v < w.addr)) && chainOkB (w :: r)

theorem chainOkB_iff : ∀ (l : List oe_vad), chainOkB l = true ↔ List.Chain' gapRel l
  | [] => by simp [chainOkB]
  | [v] => by simp [chainOkB]
  | v :: w :: r => by
    rw [chainOkB, List.chain'_cons, Bool.and_eq_true, decide_eq_true_iff,
        chainOkB_iff (w :: r)]
    exact Iff.rfl

instance (e : ℕ) (l : List oe_vad) : Decidable (listOk e l) :=
  decidable_of_iff (chainOkB l = true ∧ ∀ v ∈ l, vadEnd v ≤ e)
    (by rw [chainOkB_iff]; exact Iff.rfl)

instance (m : oe_mman) : Decidable (topOk m) :=
  inferInstanceAs (Decidable (m.map = syncTopVal m.end_ m.vad_list))

/-- C3, code bug.  On the reachable two-region state `w2`, a request of
`2^63` bytes fits no interior gap, so `_mman_find_gap` falls back to
`start = mman->map - size`.  The claim says the search then fails with the
out-of-memory sentinel because the headroom is exhausted; instead the
`uintptr_t` subtraction wraps past zero, the `brk <= start` guard accepts
the wrapped address `map + 2^63`, far beyond the heap end, and the search
returns it as a non-zero gap address.  `oe_mman_map` then proceeds at that
wild address (mutating the region list) and its zero-fill `memset` faults,
so the promised clean out-of-memory failure never happens. -/
theorem c3_find_gap_underflow :
    Reach w2 ∧
    w2.map < 9223372036854775808 ∧
    (mmanFindGap w2 9223372036854775808).1.1 = w2.map + 9223372036854775808 ∧
    (mmanFindGap w2 9223372036854775808).1.1 ≠ 0 ∧
    w2.end_ < (mmanFindGap w2 9223372036854775808).1.1 :=
  ⟨w2_reach, by decide, by decide, by decide, by decide⟩

end MmanModel

namespace MmanModel

/-! ## C5: atomicity of failures -/

/-- The manager state the atomicity claim talks about: `brk`, `map`, the
region list and the descriptor pool (the error string is diagnostic
output, not state). -/
def mmanCore (m : oe_mman) : Nat × Nat × List oe_vad × Nat :=
  (m.brk, m.map, m.vad_list, m.avail)

/-- The list mutation left behind by `oe_mman_unmap`'s failing middle
split: the containing region is shrunk to its left piece. -/
def shrinkMiddle (a : ℕ) (l : List oe_vad) : List oe_vad :=
  match listFindSplit a l with
  | some (pre, vad, rest) => pre ++ {vad with size := (a - vad.addr) % U32} :: rest
  | none => l

theorem sbrk_fail_core (m : oe_mman) (hs : m.sanity = false) (i : Int)
    (hf : (oe_mman_sbrk m i).1 = none) :
    mmanCore (oe_mman_sbrk m i).2 = mmanCore m := by
  simp only [oe_mman_sbrk, mmanIsSane, hs, Bool.false_eq_true, if_false] at hf ⊢
  by_cases h1 : i = 0
  · rw [if_pos h1] at hf; exact absurd hf (by simp)
  rw [if_neg h1] at hf ⊢
  by_cases h2 : ucast64 i ≤ m.map - m.brk
  · rw [if_pos h2] at hf; exact absurd hf (by simp)
  rw [if_neg h2]
  rfl

theorem brk_fail_core (m : oe_mman) (hs : m.sanity = false) (a : ℕ)
    (hf : (oe_mman_brk m a).1 ≠ .OE_OK) :
    mmanCore (oe_mman_brk m a).2 = mmanCore m := by
  simp only [oe_mman_brk, mmanIsSane, hs, Bool.false_eq_true, if_false] at hf ⊢
  by_cases h1 : a < m.start ∨ a ≥ m.map
  · rw [if_pos h1]
    rfl
  · rw [if_neg h1] at hf
    exact absurd rfl hf

set_option maxHeartbeats 4000000 in
theorem map_fail_core (m : oe_mman) (hs : m.sanity = false) (a l pr fl : ℕ)
    (hf : (oe_mman_map m a l pr fl).1 = none) :
    mmanCore (oe_mman_map m a l pr fl).2 = mmanCore m := by
  rcases hE : oe_mman_map m a l pr fl with ⟨r, m2⟩
  rw [hE] at hf
  simp only at hf
  subst hf
  show mmanCore m2 = mmanCore m
  simp only [oe_mman_map, mmanIsSane, hs, Bool.false_eq_true, if_false] at hE
  by_cases c0 : m.magic ≠ OE_HEAP_MAGIC
  · rw [if_pos c0] at hE
    obtain rfl : _ = m2 := congrArg Prod.snd hE
    rfl
  rw [if_neg c0] at hE
  by_cases c1 : a ≠ 0 ∧ a % PAGE_SIZE ≠ 0
  · rw [if_pos c1] at hE
    obtain rfl : _ = m2 := congrArg Prod.snd hE
    rfl
  rw [if_neg c1] at hE
  by_cases c2 : l = 0
  · rw [if_pos c2] at hE
    obtain rfl : _ = m2 := congrArg Prod.snd hE
    rfl
  rw [if_neg c2] at hE
  by_cases c3 : pr &&& OE_PROT_READ = 0
  · rw [if_pos c3] at hE
    obtain rfl : _ = m2 := congrArg Prod.snd hE
    rfl
  rw [if_neg c3] at hE
  by_cases c4 : pr &&& OE_PROT_WRITE = 0
  · rw [if_pos c4] at hE
    obtain rfl : _ = m2 := congrArg Prod.snd hE
    rfl
  rw [if_neg c4] at hE
  by_cases c5 : pr &&& OE_PROT_EXEC ≠ 0
  · rw [if_pos c5] at hE
    obtain rfl : _ = m2 := congrArg Prod.snd hE
    rfl
  rw [if_neg c5] at hE
  by_cases c6 : fl &&& OE_MAP_ANONYMOUS = 0
  · rw [if_pos c6] at hE
    obtain rfl : _ = m2 := congrArg Prod.snd hE
    rfl
  rw [if_neg c6] at hE
  by_cases c7 : fl &&& OE_MAP_PRIVATE = 0
  · rw [if_pos c7] at hE
    obtain rfl : _ = m2 := congrArg Prod.snd hE
    rfl
  rw [if_neg c7] at hE
  by_cases c8 : fl &&& OE_MAP_SHARED ≠ 0
  · rw [if_pos c8] at hE
    obtain rfl : _ = m2 := congrArg Prod.snd hE
    rfl
  rw [if_neg c8] at hE
  by_cases c9 : fl &&& OE_MAP_FIXED ≠ 0
  · rw [if_pos c9] at hE
    obtain rfl : _ = m2 := congrArg Prod.snd hE
    rfl
  rw [if_neg c9] at hE
  by_cases c10 : a ≠ 0
  · rw [if_pos c10] at hE
    obtain rfl : _ = m2 := congrArg Prod.snd hE
    rfl
  rw [if_neg c10] at hE
  rcases hfg : findGapAddr {m with sanity := false, err := ""}
      ((l + PAGE_SIZE - 1) / PAGE_SIZE * PAGE_SIZE) with ⟨start, info⟩
  rw [hfg] at hE
  simp only at hE
  by_cases hstart : start = 0
  · rw [if_pos hstart] at hE
    obtain rfl : _ = m2 := congrArg Prod.snd hE
    rfl
  rw [if_neg hstart] at hE
  cases info with
  | some plr =>
    obtain ⟨pre, left, rest⟩ := plr
    dsimp only at hE
    cases rest with
    | cons right rest2 =>
      dsimp only at hE
      by_cases hco : start + (l + PAGE_SIZE - 1) / PAGE_SIZE * PAGE_SIZE = right.addr
      · rw [if_pos hco] at hE; exact Option.noConfusion (congrArg Prod.fst hE)
      · rw [if_neg hco] at hE; exact Option.noConfusion (congrArg Prod.fst hE)
    | nil =>
      dsimp only at hE
      exact Option.noConfusion (congrArg Prod.fst hE)
  | none =>
    cases hvl : m.vad_list with
    | cons right rest2 =>
      rw [hvl] at hE
      dsimp only at hE
      by_cases hco : start + (l + PAGE_SIZE - 1) / PAGE_SIZE * PAGE_SIZE = right.addr
      · rw [if_pos hco] at hE; exact Option.noConfusion (congrArg Prod.fst hE)
      · rw [if_neg hco] at hE
        by_cases hav : m.avail = 0
        · rw [if_pos hav] at hE
          obtain rfl : _ = m2 := congrArg Prod.snd hE
          simp [mmanCore, hvl]
        · rw [if_neg hav] at hE; exact Option.noConfusion (congrArg Prod.fst hE)
    | nil =>
      rw [hvl] at hE
      dsimp only at hE
      by_cases hav : m.avail = 0
      · rw [if_pos hav] at hE
        obtain rfl : _ = m2 := congrArg Prod.snd hE
        simp [mmanCore, hvl]
      · rw [if_neg hav] at hE; exact Option.noConfusion (congrArg Prod.fst hE)

theorem unmap_fail_core (m : oe_mman) (hs : m.sanity = false) (a len : ℕ)
    (hf : (oe_mman_unmap m a len).1 ≠ .OE_OK) :
    mmanCore (oe_mman_unmap m a len).2.1 = mmanCore m ∨
      (m.avail = 0 ∧ (oe_mman_unmap m a len).1 = .OE_FAILURE ∧
       (oe_mman_unmap m a len).2.1 =
         {m with err := "out of VADs", vad_list := shrinkMiddle a m.vad_list}) := by
  rcases hE : oe_mman_unmap m a len with ⟨r, m2, t⟩
  rw [hE] at hf
  simp only at hf ⊢
  simp only [oe_mman_unmap] at hE
  simp only [mmanIsSane, hs, Bool.false_eq_true, if_false] at hE
  by_cases c1 : a = 0 ∨ len = 0 ∨ m.magic ≠ OE_HEAP_MAGIC
  · rw [if_pos c1] at hE
    obtain rfl : _ = m2 := congrArg (fun x => x.2.1) hE
    exact Or.inl rfl
  rw [if_neg c1] at hE
  by_cases c2 : a % PAGE_SIZE ≠ 0
  · rw [if_pos c2] at hE
    obtain rfl : _ = m2 := congrArg (fun x => x.2.1) hE
    exact Or.inl rfl
  rw [if_neg c2] at hE
  by_cases c3 : len % PAGE_SIZE ≠ 0
  · rw [if_pos c3] at hE
    obtain rfl : _ = m2 := congrArg (fun x => x.2.1) hE
    exact Or.inl rfl
  rw [if_neg c3] at hE
  cases hfind : listFindSplit a m.vad_list with
  | none =>
    rw [hfind] at hE
    obtain rfl : _ = m2 := congrArg (fun x => x.2.1) hE
    exact Or.inl rfl
  | some pvr =>
    obtain ⟨pre, vad, rest⟩ := pvr
    rw [hfind] at hE
    dsimp only at hE
    by_cases c4 : a + len > vadEnd vad
    · rw [if_pos c4] at hE
      obtain rfl : _ = m2 := congrArg (fun x => x.2.1) hE
      exact Or.inl rfl
    rw [if_neg c4] at hE
    by_cases cc1 : vad.addr = a ∧ vadEnd vad = a + len
    · rw [if_pos cc1] at hE
      dsimp only at hE
      simp only [Bool.false_eq_true, if_false] at hE
      exact absurd (congrArg (fun x => x.1) hE).symm hf
    rw [if_neg cc1] at hE
    by_cases cc2 : vad.addr = a
    · rw [if_pos cc2] at hE
      dsimp only at hE
      simp only [Bool.false_eq_true, if_false] at hE
      exact absurd (congrArg (fun x => x.1) hE).symm hf
    rw [if_neg cc2] at hE
    by_cases cc3 : vadEnd vad = a + len
    · rw [if_pos cc3] at hE
      dsimp only at hE
      simp only [Bool.false_eq_true, if_false] at hE
      exact absurd (congrArg (fun x => x.1) hE).symm hf
    rw [if_neg cc3] at hE
    by_cases cav : m.avail = 0
    · rw [if_pos cav] at hE
      dsimp only at hE
      refine Or.inr ⟨cav, ?_, ?_⟩
      · exact (congrArg (fun x => x.1) hE).symm
      · obtain rfl : _ = m2 := congrArg (fun x => x.2.1) hE
        simp [shrinkMiddle, hfind, hs]
    · rw [if_neg cav] at hE
      dsimp only at hE
      simp only [Bool.false_eq_true, if_false] at hE
      exact absurd (congrArg (fun x => x.1) hE).symm hf


set_option maxHeartbeats 4000000 in
theorem map_sanity (m : oe_mman) (hs : m.sanity = false) (a l pr fl : ℕ) :
    (oe_mman_map m a l pr fl).2.sanity = false := by
  rcases hE : oe_mman_map m a l pr fl with ⟨r, m2⟩
  show m2.sanity = false
  simp only [oe_mman_map, mmanIsSane, hs, Bool.false_eq_true, if_false] at hE
  by_cases c0 : m.magic ≠ OE_HEAP_MAGIC
  · rw [if_pos c0] at hE
    obtain rfl : _ = m2 := congrArg Prod.snd hE
    rfl
  rw [if_neg c0] at hE
  by_cases c1 : a ≠ 0 ∧ a % PAGE_SIZE ≠ 0
  · rw [if_pos c1] at hE
    obtain rfl : _ = m2 := congrArg Prod.snd hE
    rfl
  rw [if_neg c1] at hE
  by_cases c2 : l = 0
  · rw [if_pos c2] at hE
    obtain rfl : _ = m2 := congrArg Prod.snd hE
    rfl
  rw [if_neg c2] at hE
  by_cases c3 : pr &&& OE_PROT_READ = 0
  · rw [if_pos c3] at hE
    obtain rfl : _ = m2 := congrArg Prod.snd hE
    rfl
  rw [if_neg c3] at hE
  by_cases c4 : pr &&& OE_PROT_WRITE = 0
  · rw [if_pos c4] at hE
    obtain rfl : _ = m2 := congrArg Prod.snd hE
    rfl
  rw [if_neg c4] at hE
  by_cases c5 : pr &&& OE_PROT_EXEC ≠ 0
  · rw [if_pos c5] at hE
    obtain rfl : _ = m2 := congrArg Prod.snd hE
    rfl
  rw [if_neg c5] at hE
  by_cases c6 : fl &&& OE_MAP_ANONYMOUS = 0
  · rw [if_pos c6] at hE
    obtain rfl : _ = m2 := congrArg Prod.snd hE
    rfl
  rw [if_neg c6] at hE
  by_cases c7 : fl &&& OE_MAP_PRIVATE = 0
  · rw [if_pos c7] at hE
    obtain rfl : _ = m2 := congrArg Prod.snd hE
    rfl
  rw [if_neg c7] at hE
  by_cases c8 : fl &&& OE_MAP_SHARED ≠ 0
  · rw [if_pos c8] at hE
    obtain rfl : _ = m2 := congrArg Prod.snd hE
    rfl
  rw [if_neg c8] at hE
  by_cases c9 : fl &&& OE_MAP_FIXED ≠ 0
  · rw [if_pos c9] at hE
    obtain rfl : _ = m2 := congrArg Prod.snd hE
    rfl
  rw [if_neg c9] at hE
  by_cases c10 : a ≠ 0
  · rw [if_pos c10] at hE
    obtain rfl : _ = m2 := congrArg Prod.snd hE
    rfl
  rw [if_neg c10] at hE
  rcases hfg : findGapAddr {m with sanity := false, err := ""}
      ((l + PAGE_SIZE - 1) / PAGE_SIZE * PAGE_SIZE) with ⟨start, info⟩
  rw [hfg] at hE
  simp only at hE
  by_cases hstart : start = 0
  · rw [if_pos hstart] at hE
    obtain rfl : _ = m2 := congrArg Prod.snd hE
    rfl
  rw [if_neg hstart] at hE
  cases info with
  | some plr =>
    obtain ⟨pre, left, rest⟩ := plr
    dsimp only at hE
    cases rest with
    | cons right rest2 =>
      dsimp only at hE
      by_cases hco : start + (l + PAGE_SIZE - 1) / PAGE_SIZE * PAGE_SIZE = right.addr
      · rw [if_pos hco] at hE
        obtain rfl : _ = m2 := congrArg Prod.snd hE
        rfl
      · rw [if_neg hco] at hE
        obtain rfl : _ = m2 := congrArg Prod.snd hE
        rfl
    | nil =>
      dsimp only at hE
      obtain rfl : _ = m2 := congrArg Prod.snd hE
      rfl
  | none =>
    cases hvl : m.vad_list with
    | cons right rest2 =>
      rw [hvl] at hE
      dsimp only at hE
      by_cases hco : start + (l + PAGE_SIZE - 1) / PAGE_SIZE * PAGE_SIZE = right.addr
      · rw [if_pos hco] at hE
        obtain rfl : _ = m2 := congrArg Prod.snd hE
        rfl
      · rw [if_neg hco] at hE
        by_cases hav : m.avail = 0
        · rw [if_pos hav] at hE
          obtain rfl : _ = m2 := congrArg Prod.snd hE
          rfl
        · rw [if_neg hav] at hE
          obtain rfl : _ = m2 := congrArg Prod.snd hE
          rfl
    | nil =>
      rw [hvl] at hE
      dsimp only at hE
      by_cases hav : m.avail = 0
      · rw [if_pos hav] at hE
        obtain rfl : _ = m2 := congrArg Prod.snd hE
        rfl
      · rw [if_neg hav] at hE
        obtain rfl : _ = m2 := congrArg Prod.snd hE
        rfl


theorem unmap_sanity (m : oe_mman) (hs : m.sanity = false) (a len : ℕ) :
    (oe_mman_unmap m a len).2.1.sanity = false := by
  rcases hE : oe_mman_unmap m a len with ⟨r, m2, t⟩
  show m2.sanity = false
  simp only [oe_mman_unmap, mmanIsSane, hs, Bool.false_eq_true, if_false] at hE
  by_cases c1 : a = 0 ∨ len = 0 ∨ m.magic ≠ OE_HEAP_MAGIC
  · rw [if_pos c1] at hE
    obtain rfl : _ = m2 := congrArg (fun x => x.2.1) hE
    rfl
  rw [if_neg c1] at hE
  by_cases c2 : a % PAGE_SIZE ≠ 0
  · rw [if_pos c2] at hE
    obtain rfl : _ = m2 := congrArg (fun x => x.2.1) hE
    rfl
  rw [if_neg c2] at hE
  by_cases c3 : len % PAGE_SIZE ≠ 0
  · rw [if_pos c3] at hE
    obtain rfl : _ = m2 := congrArg (fun x => x.2.1) hE
    rfl
  rw [if_neg c3] at hE
  cases hfind : listFindSplit a m.vad_list with
  | none =>
    rw [hfind] at hE
    obtain rfl : _ = m2 := congrArg (fun x => x.2.1) hE
    rfl
  | some pvr =>
    obtain ⟨pre, vad, rest⟩ := pvr
    rw [hfind] at hE
    dsimp only at hE
    by_cases c4 : a + len > vadEnd vad
    · rw [if_pos c4] at hE
      obtain rfl : _ = m2 := congrArg (fun x => x.2.1) hE
      rfl
    rw [if_neg c4] at hE
    by_cases cc1 : vad.addr = a ∧ vadEnd vad = a + len
    · rw [if_pos cc1] at hE
      dsimp only at hE
      simp only [Bool.false_eq_true, if_false] at hE
      obtain rfl : _ = m2 := congrArg (fun x => x.2.1) hE
      rfl
    rw [if_neg cc1] at hE
    by_cases cc2 : vad.addr = a
    · rw [if_pos cc2] at hE
      dsimp only at hE
      simp only [Bool.false_eq_true, if_false] at hE
      obtain rfl : _ = m2 := congrArg (fun x => x.2.1) hE
      rfl
    rw [if_neg cc2] at hE
    by_cases cc3 : vadEnd vad = a + len
    · rw [if_pos cc3] at hE
      dsimp only at hE
      simp only [Bool.false_eq_true, if_false] at hE
      obtain rfl : _ = m2 := congrArg (fun x => x.2.1) hE
      rfl
    rw [if_neg cc3] at hE
    by_cases cav : m.avail = 0
    · rw [if_pos cav] at hE
      dsimp only at hE
      obtain rfl : _ = m2 := congrArg (fun x => x.2.1) hE
      rfl
    · rw [if_neg cav] at hE
      dsimp only at hE
      simp only [Bool.false_eq_true, if_false] at hE
      obtain rfl : _ = m2 := congrArg (fun x => x.2.1) hE
      rfl


theorem remap_fail_core (m : oe_mman) (hs : m.sanity = false) (a os ns fl : ℕ)
    (hf : (oe_mman_remap m a os ns fl).1 = none) :
    mmanCore (oe_mman_remap m a os ns fl).2 = mmanCore m ∨
      (oe_mman_remap m a os ns fl).2.err = "unmapping failed" := by
  rcases hE : oe_mman_remap m a os ns fl with ⟨r, m2⟩
  rw [hE] at hf
  simp only at hf
  subst hf
  show mmanCore m2 = mmanCore m ∨ m2.err = "unmapping failed"
  simp only [oe_mman_remap, mmanIsSane, hs, Bool.false_eq_true, if_false] at hE
  by_cases c1 : m.magic ≠ OE_HEAP_MAGIC ∨ a = 0
  · rw [if_pos c1] at hE
    obtain rfl : _ = m2 := congrArg Prod.snd hE
    exact Or.inl rfl
  rw [if_neg c1] at hE
  by_cases c2 : a % PAGE_SIZE ≠ 0
  · rw [if_pos c2] at hE
    obtain rfl : _ = m2 := congrArg Prod.snd hE
    exact Or.inl rfl
  rw [if_neg c2] at hE
  by_cases c3 : os = 0
  · rw [if_pos c3] at hE
    obtain rfl : _ = m2 := congrArg Prod.snd hE
    exact Or.inl rfl
  rw [if_neg c3] at hE
  by_cases c4 : ns = 0
  · rw [if_pos c4] at hE
    obtain rfl : _ = m2 := congrArg Prod.snd hE
    exact Or.inl rfl
  rw [if_neg c4] at hE
  by_cases c5 : fl ≠ OE_MREMAP_MAYMOVE
  · rw [if_pos c5] at hE
    obtain rfl : _ = m2 := congrArg Prod.snd hE
    exact Or.inl rfl
  rw [if_neg c5] at hE
  set os2 : ℕ := roundUpMult os PAGE_SIZE with hos2
  set ns2 : ℕ := roundUpMult ns PAGE_SIZE with hns2
  cases hfind : listFindSplit a m.vad_list with
  | none =>
    rw [hfind] at hE
    obtain rfl : _ = m2 := congrArg Prod.snd hE
    exact Or.inl rfl
  | some pvr =>
    obtain ⟨pre, vad, rest⟩ := pvr
    rw [hfind] at hE
    dsimp only at hE
    by_cases c6 : a + os2 > vadEnd vad
    · rw [if_pos c6] at hE
      obtain rfl : _ = m2 := congrArg Prod.snd hE
      exact Or.inl rfl
    rw [if_neg c6] at hE
    by_cases cs : ns2 < os2
    · rw [if_pos cs] at hE
      by_cases cx : vadEnd vad ≠ a + os2
      · rw [if_pos cx] at hE
        by_cases cav : m.avail = 0
        · rw [if_pos cav] at hE
          dsimp only at hE
          obtain rfl : _ = m2 := congrArg Prod.snd hE
          exact Or.inl rfl
        rw [if_neg cav] at hE
        dsimp only at hE
        simp only [Bool.false_eq_true, if_false] at hE
        exact Option.noConfusion (congrArg Prod.fst hE)
      · rw [if_neg cx] at hE
        dsimp only at hE
        simp only [Bool.false_eq_true, if_false] at hE
        exact Option.noConfusion (congrArg Prod.fst hE)
    · rw [if_neg cs] at hE
      by_cases cg : os2 < ns2
      · rw [if_pos cg] at hE
        by_cases cip : vadEnd vad = a + os2 ∧ ns2 - os2 ≤ getRightGap m.end_ vad rest
        · rw [if_pos cip] at hE
          cases rest with
          | cons next rest2 =>
            dsimp only at hE
            by_cases cco : vadEnd {vad with size := (vad.size + (ns2 - os2)) % U32} = next.addr
            · rw [if_pos cco] at hE
              simp only [Bool.false_eq_true, if_false] at hE
              exact Option.noConfusion (congrArg Prod.fst hE)
            · rw [if_neg cco] at hE
              simp only [Bool.false_eq_true, if_false] at hE
              exact Option.noConfusion (congrArg Prod.fst hE)
          | nil =>
            dsimp only at hE
            simp only [Bool.false_eq_true, if_false] at hE
            exact Option.noConfusion (congrArg Prod.fst hE)
        · rw [if_neg cip] at hE
          rcases hmap : oe_mman_map {m with sanity := false, err := ""} 0 ns2
              vad.prot vad.flags with ⟨r1, m1⟩
          rw [hmap] at hE
          cases r1 with
          | none =>
            dsimp only at hE
            obtain rfl : _ = m2 := congrArg Prod.snd hE
            refine Or.inl ?_
            have h1 := map_fail_core {m with sanity := false, err := ""} rfl 0 ns2
              vad.prot vad.flags (by rw [hmap])
            rw [hmap] at h1
            exact h1
          | some a1 =>
            dsimp only at hE
            have hm1 : m1.sanity = false := by
              have h1 := map_sanity {m with sanity := false, err := ""} rfl 0 ns2
                vad.prot vad.flags
              rw [hmap] at h1
              exact h1
            rcases hun : oe_mman_unmap m1 a os2 with ⟨r2, m2x, t2⟩
            rw [hun] at hE
            cases r2 with
            | OE_OK =>
              dsimp only at hE
              have hm2 : m2x.sanity = false := by
                have h2 := unmap_sanity m1 hm1 a os2
                rw [hun] at h2
                exact h2
              simp only [hm2, Bool.false_eq_true, if_false] at hE
              exact Option.noConfusion (congrArg Prod.fst hE)
            | OE_FAILURE =>
              dsimp only at hE
              obtain rfl : _ = m2 := congrArg Prod.snd hE
              exact Or.inr rfl
            | OE_INVALID_PARAMETER =>
              dsimp only at hE
              obtain rfl : _ = m2 := congrArg Prod.snd hE
              exact Or.inr rfl
            | OE_OUT_OF_MEMORY =>
              dsimp only at hE
              obtain rfl : _ = m2 := congrArg Prod.snd hE
              exact Or.inr rfl
            | OE_UNEXPECTED =>
              dsimp only at hE
              obtain rfl : _ = m2 := congrArg Prod.snd hE
              exact Or.inr rfl
      · rw [if_neg cg] at hE
        dsimp only at hE
        simp only [Bool.false_eq_true, if_false] at hE
        exact Option.noConfusion (congrArg Prod.fst hE)


/-- A sane manager state with an exhausted VAD pool (`avail = 0`) and one
live region [24576, 36864). -/
def c5state : oe_mman :=
  { base := 4096, size := 40960, start := 8192, brk := 8192, map := 24576,
    end_ := 45056, vad_list := [⟨24576, 12288, 3, 34⟩], avail := 0,
    scrub := false, sanity := false, magic := OE_HEAP_MAGIC, inited := true,
    err := "" }

/-- C5, counterexample to "the containing region is unchanged": on a sane
state whose descriptor pool is exhausted, unmapping a page from the middle
of the region [24576, 36864) fails with `OE_FAILURE`, yet the containing
region has been shrunk to its left piece [24576, 28672) — the failing call
mutates the region list. -/
theorem c5_counterexample :
    StrongInv c5state ∧
    (oe_mman_unmap c5state 28672 4096).1 = .OE_FAILURE ∧
    (oe_mman_unmap c5state 28672 4096).2.1.vad_list ≠ c5state.vad_list ∧
    (oe_mman_unmap c5state 28672 4096).2.1.vad_list = [⟨24576, 4096, 3, 34⟩] := by
  refine ⟨?_, by decide, by decide, by decide⟩
  simp only [StrongInv]
  decide

/-- C5, corrected: on every reachable state, a failing `oe_mman_sbrk`,
`oe_mman_brk` or `oe_mman_map` leaves the core state (`brk`, `map`, the
region list and the descriptor count) unchanged.  A failing
`oe_mman_unmap` does too, EXCEPT its middle-split case with an exhausted
descriptor pool, which returns `OE_FAILURE` after shrinking the containing
region to the part left of the hole (`shrinkMiddle`).  A failing
`oe_mman_remap` does too, except when its grow-by-move path has already
mapped the new region and the nested unmap of the old one then fails
(diagnostic "unmapping failed"). -/
theorem c5_failure_atomicity (m : oe_mman) (h : Reach m) (i : Int)
    (ab aa la ap af au lu ar osr nsr flr : ℕ) :
    ((oe_mman_sbrk m i).1 = none → mmanCore (oe_mman_sbrk m i).2 = mmanCore m) ∧
    ((oe_mman_brk m ab).1 ≠ .OE_OK → mmanCore (oe_mman_brk m ab).2 = mmanCore m) ∧
    ((oe_mman_map m aa la ap af).1 = none →
        mmanCore (oe_mman_map m aa la ap af).2 = mmanCore m) ∧
    ((oe_mman_unmap m au lu).1 ≠ .OE_OK →
        mmanCore (oe_mman_unmap m au lu).2.1 = mmanCore m ∨
        (m.avail = 0 ∧ (oe_mman_unmap m au lu).1 = .OE_FAILURE ∧
         (oe_mman_unmap m au lu).2.1 =
           {m with err := "out of VADs", vad_list := shrinkMiddle au m.vad_list})) ∧
    ((oe_mman_remap m ar osr nsr flr).1 = none →
        mmanCore (oe_mman_remap m ar osr nsr flr).2 = mmanCore m ∨
        (oe_mman_remap m ar osr nsr flr).2.err = "unmapping failed") := by
  have hs : m.sanity = false := (reach_inv m h).2.2.1
  exact ⟨sbrk_fail_core m hs i, brk_fail_core m hs ab, map_fail_core m hs aa la ap af,
         unmap_fail_core m hs au lu, remap_fail_core m hs ar osr nsr flr⟩

/-- C5, witness: the atomicity theorem applied to the concrete reachable
trace state `w2`, at one failing call of each public operation. -/
theorem c5_witness :
    (mmanCore (oe_mman_sbrk w2 (-4096)).2 = mmanCore w2) ∧
    (mmanCore (oe_mman_brk w2 0).2 = mmanCore w2) ∧
    (mmanCore (oe_mman_map w2 0 0 3 34).2 = mmanCore w2) ∧
    (mmanCore (oe_mman_unmap w2 4096 4096).2.1 = mmanCore w2 ∨
      (w2.avail = 0 ∧ (oe_mman_unmap w2 4096 4096).1 = .OE_FAILURE ∧
       (oe_mman_unmap w2 4096 4096).2.1 =
         {w2 with err := "out of VADs", vad_list := shrinkMiddle 4096 w2.vad_list})) ∧
    (mmanCore (oe_mman_remap w2 4096 4096 4096 0).2 = mmanCore w2 ∨
      (oe_mman_remap w2 4096 4096 4096 0).2.err = "unmapping failed") := by
  have H := c5_failure_atomicity w2 w2_reach (-4096) 0 0 0 3 34 4096 4096 4096 4096 4096 0
  exact ⟨H.1 (by decide), H.2.1 (by decide), H.2.2.1 (by decide),
         H.2.2.2.1 (by decide), H.2.2.2.2 (by decide)⟩


end MmanModel
